import Mathlib

/-!
Octree node construction and insertion (`structs/octree/octnode.go`).

A shallow embedding of `OctNode`, `NewOctNode`, `AddOctElement` and
`getSubOctNodeContainingElement`, for serial (non-overlapping) calls.

* A Go `*OctNode` is a value of the inductive type `OctNode`: `OctNode.nil` is the nil
  pointer and `OctNode.node ..` is a pointer to a struct with the nine data fields of the
  source (the embedded `sync.RWMutex` carries no data in a serial run).  A child is owned by
  the slot of `Children` that holds it, so a mutation made through the child pointer is a
  replacement of that slot's content.
* The address of a node, needed for the `Parent` back-reference only, is its octant path
  from the root of the tree (`NodeRef`); the receiver of a method is passed as its address
  together with its content.
* `int32`, `int64` and `uint8` arithmetic wraps (`wrapInt32`, `wrapInt64`, `wrapUint8`).
* The `Opts` and `BoundingBox` pointers of a node are not nil.
* The recursion of `AddOctElement` is bounded by a fuel argument which counts nested calls;
  running out of fuel and dereferencing nil are distinct faults.
* Overlapping calls of `getSubOctNodeContainingElement` on one slot of one node are a step
  relation of their own (`callerStep`, `runSchedule`): a caller moves between the points of
  the function at which it touches the node, the state of the `sync.RWMutex` is explicit,
  and a schedule names the caller that takes each step.
-/

namespace octree

/-- Address of a node: the octant indices leading to it from the root of the tree. -/
abbrev NodeRef := List (Fin 8)

/-- The tiler options; only `MaxNumPointsPerNode` is read by the octree node.  It is compared
with the `int32` value of `LocalChildrenCount`, so it is an `int32` itself: the second field
records that its value is in the `int32` range. -/
structure TilerOptions where
  MaxNumPointsPerNode : Int
  isInt32 : -2147483648 ≤ MaxNumPointsPerNode ∧ MaxNumPointsPerNode < 2147483648
deriving DecidableEq

/-- Modelled from the spec: the two methods of `BoundingBox` used by the node, whose source is
not part of `octnode.go`.  `getOctantFromElement` is the spec's
`octantOf(volume, element) -> integer in [0,7]` and `getOctantBoundingBox` is
`subVolume(volume, octant) -> Volume`; both are deterministic. -/
structure BoundingBoxOps (B E : Type) where
  getOctantFromElement : B → E → Fin 8
  getOctantBoundingBox : B → Fin 8 → B

/-- Ways in which a run of the embedded code stops without a result: the panic of a nil
pointer dereference, the exhaustion of the fuel, and the panic of `strings.Repeat` on a
negative count. -/
inductive Fault where
  | nilDereference
  | outOfFuel
  | negativeRepeatCount
deriving DecidableEq

/-- Two's complement wrap-around of `int32` arithmetic. -/
def wrapInt32 (x : Int) : Int := (x + 2147483648) % 4294967296 - 2147483648

/-- Two's complement wrap-around of `int64` arithmetic. -/
def wrapInt64 (x : Int) : Int :=
  (x + 9223372036854775808) % 18446744073709551616 - 9223372036854775808

/-- Wrap-around of `uint8` arithmetic. -/
def wrapUint8 (x : Nat) : Nat := x % 256

/-- A `*OctNode`: nil, or a pointer to a struct with the fields of the source. -/
inductive OctNode (B E : Type) where
  | nil : OctNode B E
  | node (Parent : Option NodeRef) (BoundingBox : B) (Children : Fin 8 → OctNode B E)
      (Items : List E) (Depth : Nat) (GlobalChildrenCount : Int) (LocalChildrenCount : Int)
      (Opts : TilerOptions) (IsLeaf : Bool) : OctNode B E

namespace OctNode

variable {B E : Type}

/-- The test `octNode == nil`. -/
def isNil : OctNode B E → Bool
  | nil => true
  | node _ _ _ _ _ _ _ _ _ => false

/-- Field `Parent` (none for the nil pointer). -/
def Parent : OctNode B E → Option NodeRef
  | nil => none
  | node p _ _ _ _ _ _ _ _ => p

/-- Field `BoundingBox`. -/
def BoundingBox : OctNode B E → Option B
  | nil => none
  | node _ b _ _ _ _ _ _ _ => some b

/-- Field `Children`: the eight slots (all nil for the nil pointer). -/
def Children : OctNode B E → Fin 8 → OctNode B E
  | nil => fun _ => nil
  | node _ _ c _ _ _ _ _ _ => c

/-- Field `Items` (empty for the nil pointer). -/
def Items : OctNode B E → List E
  | nil => []
  | node _ _ _ i _ _ _ _ _ => i

/-- Field `Depth`. -/
def Depth : OctNode B E → Nat
  | nil => 0
  | node _ _ _ _ d _ _ _ _ => d

/-- Field `GlobalChildrenCount`. -/
def GlobalChildrenCount : OctNode B E → Int
  | nil => 0
  | node _ _ _ _ _ g _ _ _ => g

/-- Field `LocalChildrenCount`. -/
def LocalChildrenCount : OctNode B E → Int
  | nil => 0
  | node _ _ _ _ _ _ l _ _ => l

/-- Field `Opts`. -/
def Opts : OctNode B E → Option TilerOptions
  | nil => none
  | node _ _ _ _ _ _ _ o _ => some o

/-- The value `octNode.Opts.MaxNumPointsPerNode` read by `AddOctElement` (0 for nil). -/
def MaxNumPointsPerNode : OctNode B E → Int
  | nil => 0
  | node _ _ _ _ _ _ _ o _ => o.MaxNumPointsPerNode

/-- Field `IsLeaf`. -/
def IsLeaf : OctNode B E → Bool
  | nil => false
  | node _ _ _ _ _ _ _ _ f => f

/-- The assignment `octNode.Children[octant] = child`. -/
def setChild : OctNode B E → Fin 8 → OctNode B E → OctNode B E
  | nil, _, _ => nil
  | node p b c i d g l o f, octant, child => node p b (Function.update c octant child) i d g l o f

/-- The statement `atomic.AddInt64(&octNode.GlobalChildrenCount, delta)`. -/
def addGlobalChildrenCount : OctNode B E → Int → OctNode B E
  | nil, _ => nil
  | node p b c i d g l o f, delta => node p b c i d (wrapInt64 (g + delta)) l o f

/-- The node reached from `t` by following the slots named by a path (nil when absent). -/
def nodeAt : OctNode B E → NodeRef → OctNode B E
  | t, [] => t
  | t, k :: q => nodeAt (t.Children k) q

/-- Concatenation of the `Items` of every node of the tree, in depth-first pre-order with the
slots in ascending order. -/
def allItems : OctNode B E → List E
  | nil => []
  | node _ _ c i _ _ _ _ _ => i ++ (List.finRange 8).flatMap (fun k => allItems (c k))

end OctNode

open OctNode

variable {B E : Type}

/-- `NewOctNode(boundingBox, opts, depth, parent)`: the fields not named in the composite
literal take their zero value. -/
def NewOctNode (boundingBox : B) (opts : TilerOptions) (depth : Nat) (parent : Option NodeRef) :
    OctNode B E :=
  OctNode.node parent boundingBox (fun _ => OctNode.nil) [] depth 0 0 opts true

/-- `octNode.getSubOctNodeContainingElement(element)` for the receiver at address `self`.
The result is the receiver after the call together with the octant; the pointer returned by
the source is the content of that slot of the receiver. -/
def getSubOctNodeContainingElement (G : BoundingBoxOps B E) (self : NodeRef) :
    OctNode B E → E → Except Fault (OctNode B E × Fin 8)
  | OctNode.nil, _ => Except.error Fault.nilDereference
  | OctNode.node p b c i d g l o f, element =>
    let octant := G.getOctantFromElement b element
    let child := c octant
    if child.isNil = false then
      Except.ok (OctNode.node p b c i d g l o f, octant)
    else if (c octant).isNil = true then
      let newDepth := wrapUint8 (d + 1)
      Except.ok
        (OctNode.node p b
          (Function.update c octant
            (NewOctNode (G.getOctantBoundingBox b octant) o newDepth (some self)))
          i d g l o false, octant)
    else
      Except.ok (OctNode.node p b c i d g l o f, octant)

/-- `octNode.AddOctElement(element)` for the receiver at address `self`, with at most `fuel`
nested calls. -/
def AddOctElement (G : BoundingBoxOps B E) :
    Nat → NodeRef → OctNode B E → E → Except Fault (OctNode B E)
  | 0, _, _, _ => Except.error Fault.outOfFuel
  | _ + 1, _, OctNode.nil, _ => Except.error Fault.nilDereference
  | fuel + 1, self, OctNode.node p b c i d g l o f, element =>
    if l < o.MaxNumPointsPerNode then
      Except.ok
        ((OctNode.node p b c (i ++ [element]) d g (wrapInt32 (l + 1)) o f).addGlobalChildrenCount 1)
    else
      match getSubOctNodeContainingElement G self (OctNode.node p b c i d g l o f) element with
      | Except.error e => Except.error e
      | Except.ok (octNode1, octant) =>
        match AddOctElement G fuel (self ++ [octant]) (octNode1.Children octant) element with
        | Except.error e => Except.error e
        | Except.ok child => Except.ok ((octNode1.setChild octant child).addGlobalChildrenCount 1)

/-- Serial insertion of a sequence of elements at the root (address `[]`), one call after the
other, each call with the given fuel. -/
def addAll (G : BoundingBoxOps B E) (fuel : Nat) : OctNode B E → List E → Except Fault (OctNode B E)
  | t, [] => Except.ok t
  | t, e :: es =>
    match AddOctElement G fuel [] t e with
    | Except.error f => Except.error f
    | Except.ok t1 => addAll G fuel t1 es

/-- The storing path of an insertion, read off the tree before the call: starting at the
receiver, the path stops at the first node whose `LocalChildrenCount` is strictly below
`MaxNumPointsPerNode`, and otherwise continues into the slot of the element's octant; a nil
slot is filled by a new, empty child, at which the path stops. -/
def storingPath (G : BoundingBoxOps B E) : OctNode B E → E → NodeRef
  | OctNode.nil, _ => []
  | OctNode.node _ b c _ _ _ l o _, element =>
    if l < o.MaxNumPointsPerNode then []
    else G.getOctantFromElement b element :: storingPath G (c (G.getOctantFromElement b element)) element

/-- A partitioner for examples: boxes and elements are natural numbers, the octant of an
element is its remainder modulo 8 and the sub-box of octant `k` of box `b` is `8 * b + k + 1`. -/
def exampleOps : BoundingBoxOps Nat Nat where
  getOctantFromElement := fun _ e => ⟨e % 8, Nat.mod_lt e (by decide)⟩
  getOctantBoundingBox := fun b k => 8 * b + k.val + 1

/-- Options for examples: at most three points per node. -/
def exampleOpts : TilerOptions := ⟨3, by decide⟩

/-- The child entered by a descent from a node: the content of the slot of the octant, or the
new node that `getSubOctNodeContainingElement` stores in the slot when it is nil. -/
def enteredChild (G : BoundingBoxOps B E) (self : NodeRef) (b : B) (c : Fin 8 → OctNode B E)
    (d : Nat) (o : TilerOptions) (k : Fin 8) : OctNode B E :=
  if (c k).isNil = true then
    NewOctNode (G.getOctantBoundingBox b k) o (wrapUint8 (d + 1)) (some self)
  else c k

/-- Big-step description of one call `AddOctElement(element)` that returns: the receiver at
address `self`, the path from the receiver to the node that stores the element, and the
receiver after the call.  `AddOctElement_inserts` and `AddOctElement_of_inserts` relate it to
the function. -/
inductive Inserts (G : BoundingBoxOps B E) (element : E) :
    NodeRef → OctNode B E → NodeRef → OctNode B E → Prop where
  | store (self : NodeRef) (p : Option NodeRef) (b : B) (c : Fin 8 → OctNode B E) (i : List E)
      (d : Nat) (g l : Int) (o : TilerOptions) (f : Bool) (h : l < o.MaxNumPointsPerNode) :
      Inserts G element self (OctNode.node p b c i d g l o f) []
        (OctNode.node p b c (i ++ [element]) d (wrapInt64 (g + 1)) (wrapInt32 (l + 1)) o f)
  | descend (self : NodeRef) (p : Option NodeRef) (b : B) (c : Fin 8 → OctNode B E) (i : List E)
      (d : Nat) (g l : Int) (o : TilerOptions) (f : Bool) (sp : NodeRef) (child : OctNode B E)
      (h : ¬ l < o.MaxNumPointsPerNode)
      (hrec : Inserts G element (self ++ [G.getOctantFromElement b element])
        (enteredChild G self b c d o (G.getOctantFromElement b element)) sp child) :
      Inserts G element self (OctNode.node p b c i d g l o f)
        (G.getOctantFromElement b element :: sp)
        (OctNode.node p b (Function.update c (G.getOctantFromElement b element) child) i d
          (wrapInt64 (g + 1)) l o (f && !(c (G.getOctantFromElement b element)).isNil))

/-- Every node reachable from `t` (every non-nil node at some path) satisfies `P`. -/
def EveryNode (P : OctNode B E → Prop) (t : OctNode B E) : Prop :=
  ∀ q : NodeRef, (t.nodeAt q).isNil = false → P (t.nodeAt q)

/-- Every node of `t` is fewer than `n` slots away from the root of `t`. -/
def DepthBelow (n : Nat) (t : OctNode B E) : Prop :=
  ∀ q : NodeRef, (t.nodeAt q).isNil = false → q.length < n

/-- Executable form of `EveryNode`, for concrete trees. -/
def OctNode.all (P : OctNode B E → Bool) : OctNode B E → Bool
  | OctNode.nil => true
  | OctNode.node p b c i d g l o f =>
    P (OctNode.node p b c i d g l o f) && (List.finRange 8).all (fun k => OctNode.all P (c k))

/-- The example root: box 0, at most three points per node, depth 0, no parent. -/
def exampleRoot : OctNode Nat Nat := NewOctNode 0 exampleOpts 0 none

/-- The tree obtained from `exampleRoot` by inserting 1, 2, 3 and 5: the root is full and the
fourth element is in a new child in slot 5. -/
def exampleTree : OctNode Nat Nat :=
  OctNode.node none 0
    (Function.update (fun _ => OctNode.nil) 5
      (OctNode.node (some []) 6 (fun _ => OctNode.nil) [5] 1 1 1 exampleOpts true))
    [1, 2, 3] 0 4 3 exampleOpts false

/-- The example root when it is full: the elements 1, 2 and 3 are stored in it. -/
def exampleFull : OctNode Nat Nat :=
  OctNode.node none 0 (fun _ => OctNode.nil) [1, 2, 3] 0 3 3 exampleOpts true

/-- Number of nodes of the tree. -/
def OctNode.nodeCount : OctNode B E → Nat
  | OctNode.nil => 0
  | OctNode.node _ _ c _ _ _ _ _ _ =>
    1 + ((List.finRange 8).map (fun k => OctNode.nodeCount (c k))).sum

/-- Options for examples: at most one point per node. -/
def exampleOpts1 : TilerOptions := ⟨1, by decide⟩

/-- Options for examples: a capacity of zero points per node. -/
def exampleOpts0 : TilerOptions := ⟨0, by decide⟩

/-- Every node of `t` has the `Depth` that the code gives to a node at its distance from the
root of `t`, when that root is at distance `d` from the root of the whole tree: the distance
reduced modulo 256, since `Depth` is a `uint8`. -/
def DepthFrom (d : Nat) (t : OctNode B E) : Prop :=
  ∀ q : NodeRef, (t.nodeAt q).isNil = false → (t.nodeAt q).Depth = (d + q.length) % 256

/-- The line that `PrintStructure` prints for a node, without the final newline:
`fmt.Println(strings.Repeat(" ", int(Depth)-1)+"-", "element no:", LocalChildrenCount,
"leaf:", IsLeaf)`, where `Println` puts one space between its operands. -/
def structureLine (depth : Nat) (localCount : Int) (isLeaf : Bool) : String :=
  String.mk (List.replicate (depth - 1) ' ') ++ "-" ++ " " ++ "element no:" ++ " " ++
    toString localCount ++ " " ++ "leaf:" ++ " " ++ toString isLeaf

/-- The loop `for _, e := range octNode.Children` of `PrintStructure` over the slots `ks`:
`present k` tells whether slot `k` is not nil and `visit k` is the effect of the call on the
child in slot `k`.  The state is the lines printed so far and the panic, if any, that has
ended the call. -/
def printLoop (visit : Fin 8 → List String × Option Fault) (present : Fin 8 → Bool)
    (ks : List (Fin 8)) (acc : List String × Option Fault) : List String × Option Fault :=
  ks.foldl
    (fun acc k =>
      match acc.2 with
      | some _ => acc
      | none => if present k = true then (acc.1 ++ (visit k).1, (visit k).2) else acc)
    acc

/-- `octNode.PrintStructure()`: the lines written to the console, in order, and the panic that
ended the call, if any.  `strings.Repeat` panics when its count `int(Depth) - 1` is
negative, before anything is printed for the node. -/
def PrintStructure : OctNode B E → List String × Option Fault
  | OctNode.nil => ([], some Fault.nilDereference)
  | OctNode.node _ _ c _ d _ l _ f =>
    if (d : Int) - 1 < 0 then ([], some Fault.negativeRepeatCount)
    else
      printLoop (fun k => PrintStructure (c k)) (fun k => !(c k).isNil) (List.finRange 8)
        ([structureLine d l f], none)

/-- The nodes of a tree in depth-first pre-order, the slots in ascending order, nil slots
skipped. -/
def OctNode.preorder : OctNode B E → List (OctNode B E)
  | OctNode.nil => []
  | OctNode.node p b c i d g l o f =>
    OctNode.node p b c i d g l o f :: (List.finRange 8).flatMap (fun k => OctNode.preorder (c k))

/-- The tree of scenario A grown from a root created with depth 1 instead of 0: the
insertions 1, 2, 3 and 5 with capacity three. -/
def exampleTree1 : OctNode Nat Nat :=
  OctNode.node none 0
    (Function.update (fun _ => OctNode.nil) 5
      (OctNode.node (some []) 6 (fun _ => OctNode.nil) [5] 2 1 1 exampleOpts true))
    [1, 2, 3] 1 4 3 exampleOpts false

/-- Where one caller of `getSubOctNodeContainingElement` stands, for a fixed node and a fixed
octant, when several callers run concurrently.  The points are the places of the source
between which the caller touches the shared node:
`start` before `octNode.RLock()`; `reading` with the read lock, before the read of
`octNode.Children[octant]`; `readDone child` with the read lock and the pointer read, before
`octNode.RUnlock()`; `waiting` before `octNode.Lock()`, after a nil read; `locked` with the
write lock, before the second test of the slot; `creating` before the assignment of the new
child to the slot; `stored` before `octNode.IsLeaf = false`; `returning` before
`return octNode.Children[octant]` and the deferred `octNode.Unlock()`; `returned child` after
the call, with the pointer returned.  A child instance is named by a number. -/
inductive CallerPc where
  | start
  | reading
  | readDone (child : Option Nat)
  | waiting
  | locked
  | creating
  | stored
  | returning
  | returned (child : Option Nat)
deriving DecidableEq

/-- The part of the node shared by the concurrent callers: the slot of the octant, `IsLeaf`,
the number of children constructed so far by `NewOctNode` for this slot (the next instance
takes this number as its name), and the state of the node's `sync.RWMutex`: how many callers
hold the read lock and whether a caller holds the write lock. -/
structure SlotState where
  slot : Option Nat
  isLeaf : Bool
  made : Nat
  readers : Nat
  writer : Bool
deriving DecidableEq

/-- One step of one caller, or none when the caller is blocked or has returned.  `RLock`
needs that no caller holds the write lock, `Lock` that no caller holds either lock.  The
`sync.RWMutex` of Go also holds back an `RLock` while a `Lock` is waiting; the step relation
lets that `RLock` through, so that it has every schedule of the code.  The assignment at the
point `creating` is the only write of `Children[octant]` in the source. -/
def callerStep (s : SlotState) : CallerPc → Option (SlotState × CallerPc)
  | CallerPc.start =>
    if s.writer = true then none
    else some (⟨s.slot, s.isLeaf, s.made, s.readers + 1, s.writer⟩, CallerPc.reading)
  | CallerPc.reading => some (s, CallerPc.readDone s.slot)
  | CallerPc.readDone child =>
    some (⟨s.slot, s.isLeaf, s.made, s.readers - 1, s.writer⟩,
      if child.isSome = true then CallerPc.returned child else CallerPc.waiting)
  | CallerPc.waiting =>
    if s.writer = true ∨ s.readers ≠ 0 then none
    else some (⟨s.slot, s.isLeaf, s.made, s.readers, true⟩, CallerPc.locked)
  | CallerPc.locked =>
    some (s, if s.slot.isNone = true then CallerPc.creating else CallerPc.returning)
  | CallerPc.creating =>
    some (⟨some s.made, s.isLeaf, s.made + 1, s.readers, s.writer⟩, CallerPc.stored)
  | CallerPc.stored => some (⟨s.slot, false, s.made, s.readers, s.writer⟩, CallerPc.returning)
  | CallerPc.returning =>
    some (⟨s.slot, s.isLeaf, s.made, s.readers, false⟩, CallerPc.returned s.slot)
  | CallerPc.returned _ => none

/-- The callers that hold the write lock. -/
def CallerPc.inWrite : CallerPc → Bool
  | CallerPc.locked => true
  | CallerPc.creating => true
  | CallerPc.stored => true
  | CallerPc.returning => true
  | _ => false

/-- Number of steps a caller has left at most. -/
def CallerPc.stepsLeft : CallerPc → Nat
  | CallerPc.start => 8
  | CallerPc.reading => 7
  | CallerPc.readDone _ => 6
  | CallerPc.waiting => 5
  | CallerPc.locked => 4
  | CallerPc.creating => 3
  | CallerPc.stored => 2
  | CallerPc.returning => 1
  | CallerPc.returned _ => 0

/-- A state of the concurrent run: the shared part of the node and the point of every
caller; callers are numbered, and any number of them may take part. -/
structure Concurrent where
  shared : SlotState
  pcs : Nat → CallerPc

/-- The step of caller `i`, when it can take one. -/
def stepAt (i : Nat) (c : Concurrent) : Option Concurrent :=
  match callerStep c.shared (c.pcs i) with
  | none => none
  | some (s, pc) => some ⟨s, Function.update c.pcs i pc⟩

/-- The run under a schedule, which names the caller that takes each step in turn; none when
the schedule asks a blocked or returned caller to step. -/
def runSchedule : List Nat → Concurrent → Option Concurrent
  | [], c => some c
  | i :: rest, c =>
    match stepAt i c with
    | none => none
    | some c1 => runSchedule rest c1

/-- The state before any caller has started: the slot and `IsLeaf` as given, no child
constructed yet, the lock free. -/
def initialState (slot : Option Nat) (isLeaf : Bool) : Concurrent :=
  ⟨⟨slot, isLeaf, 0, 0, false⟩, fun _ => CallerPc.start⟩

/-- What a caller may rely on at its point, given the shared state. -/
def CallerOk (s : SlotState) : CallerPc → Prop
  | CallerPc.locked => s.writer = true
  | CallerPc.creating => s.slot = none ∧ s.writer = true
  | CallerPc.stored => s.slot ≠ none ∧ s.writer = true
  | CallerPc.returning => s.slot ≠ none ∧ s.writer = true
  | CallerPc.readDone v => v = none ∨ v = s.slot
  | CallerPc.returned v => v ≠ none ∧ v = s.slot
  | _ => True

/-- The invariant of the concurrent run from a slot `slot0`: the slot is as at the start and
no child was constructed, or the slot was nil and holds the one child constructed; every
caller may rely on `CallerOk`; at most one caller holds the write lock. -/
def ConcInv (slot0 : Option Nat) (c : Concurrent) : Prop :=
  ((c.shared.slot = slot0 ∧ c.shared.made = 0) ∨
    (slot0 = none ∧ c.shared.slot = some 0 ∧ c.shared.made = 1)) ∧
  (∀ i, CallerOk c.shared (c.pcs i)) ∧
  (∀ i j, (c.pcs i).inWrite = true → (c.pcs j).inWrite = true → i = j)

/-- The callers that hold the read lock. -/
def CallerPc.inRead : CallerPc → Bool
  | CallerPc.reading => true
  | CallerPc.readDone _ => true
  | _ => false

/-- The state of the lock agrees with the callers: when the write lock is held a caller
holds it, and the number of holders of the read lock is the number of callers between
`RLock` and `RUnlock`. -/
def LockInv (c : Concurrent) : Prop :=
  (c.shared.writer = true → ∃ j, (c.pcs j).inWrite = true) ∧
  ∃ S : Finset Nat, (∀ j, (c.pcs j).inRead = true ↔ j ∈ S) ∧ c.shared.readers = S.card

/-! ## Unfolding the code -/

section basics

variable (G : BoundingBoxOps B E)

@[simp] theorem nodeAt_nil (q : NodeRef) : (OctNode.nil : OctNode B E).nodeAt q = OctNode.nil := by
  induction q with
  | nil => rfl
  | cons k q ih => simpa [OctNode.nodeAt, OctNode.Children] using ih

@[simp] theorem Children_nil (k : Fin 8) :
    (OctNode.nil : OctNode B E).Children k = OctNode.nil := rfl

@[simp] theorem nodeAt_empty (t : OctNode B E) : t.nodeAt [] = t := rfl

@[simp] theorem nodeAt_cons (t : OctNode B E) (k : Fin 8) (q : NodeRef) :
    t.nodeAt (k :: q) = (t.Children k).nodeAt q := rfl

theorem nodeAt_append (t : OctNode B E) (q r : NodeRef) :
    t.nodeAt (q ++ r) = (t.nodeAt q).nodeAt r := by
  induction q generalizing t with
  | nil => rfl
  | cons k q ih => simp [ih]

theorem nodeAt_NewOctNode_cons (b : B) (o : TilerOptions) (d : Nat) (p : Option NodeRef)
    (k : Fin 8) (q : NodeRef) :
    (NewOctNode b o d p : OctNode B E).nodeAt (k :: q) = OctNode.nil := by
  simp [NewOctNode, OctNode.Children]

theorem getSub_node (self : NodeRef) (p : Option NodeRef) (b : B)
    (c : Fin 8 → OctNode B E) (i : List E) (d : Nat) (g l : Int) (o : TilerOptions) (f : Bool)
    (e : E) :
    getSubOctNodeContainingElement G self (OctNode.node p b c i d g l o f) e =
      Except.ok (OctNode.node p b
        (Function.update c (G.getOctantFromElement b e)
          (enteredChild G self b c d o (G.getOctantFromElement b e)))
        i d g l o (f && !(c (G.getOctantFromElement b e)).isNil), G.getOctantFromElement b e) := by
  simp only [getSubOctNodeContainingElement, enteredChild]
  cases h : (c (G.getOctantFromElement b e)).isNil <;> simp [h]

theorem AddOctElement_node (fuel : Nat) (self : NodeRef)
    (p : Option NodeRef) (b : B)
    (c : Fin 8 → OctNode B E) (i : List E) (d : Nat) (g l : Int) (o : TilerOptions) (f : Bool)
    (e : E) :
    AddOctElement G (fuel + 1) self (OctNode.node p b c i d g l o f) e =
      if l < o.MaxNumPointsPerNode then
        Except.ok (OctNode.node p b c (i ++ [e]) d (wrapInt64 (g + 1)) (wrapInt32 (l + 1)) o f)
      else
        match AddOctElement G fuel (self ++ [G.getOctantFromElement b e])
            (enteredChild G self b c d o (G.getOctantFromElement b e)) e with
        | Except.error x => Except.error x
        | Except.ok child =>
          Except.ok (OctNode.node p b (Function.update c (G.getOctantFromElement b e) child)
            i d (wrapInt64 (g + 1)) l o (f && !(c (G.getOctantFromElement b e)).isNil)) := by
  rw [AddOctElement]
  split
  · rfl
  · rw [getSub_node]
    simp only [OctNode.Children, Function.update_same]
    split <;> simp_all [OctNode.setChild, OctNode.addGlobalChildrenCount]

/-- A call that returns is described by `Inserts`, and it used one unit of fuel per node of
the storing path. -/
theorem AddOctElement_inserts {fuel : Nat} {self : NodeRef} {t t1 : OctNode B E} {e : E}
    (h : AddOctElement G fuel self t e = Except.ok t1) :
    ∃ sp, Inserts G e self t sp t1 ∧ sp.length < fuel := by
  induction fuel generalizing self t t1 with
  | zero => simp [AddOctElement] at h
  | succ n ih =>
    cases t with
    | nil => simp [AddOctElement] at h
    | node p b c i d g l o f =>
      rw [AddOctElement_node] at h
      by_cases hl : l < o.MaxNumPointsPerNode
      · rw [if_pos hl] at h
        cases h
        exact ⟨[], Inserts.store self p b c i d g l o f hl, by simp⟩
      · rw [if_neg hl] at h
        cases hr : AddOctElement G n (self ++ [G.getOctantFromElement b e])
            (enteredChild G self b c d o (G.getOctantFromElement b e)) e with
        | error x => rw [hr] at h; cases h
        | ok child =>
          rw [hr] at h
          cases h
          obtain ⟨sp, hsp, hlen⟩ := ih hr
          exact ⟨_, Inserts.descend self p b c i d g l o f sp child hl hsp, by simpa using hlen⟩

/-- A described call is what the function computes, given fuel for every node of the storing
path. -/
theorem AddOctElement_of_inserts {fuel : Nat} {self sp : NodeRef} {t t1 : OctNode B E} {e : E}
    (h : Inserts G e self t sp t1) (hf : sp.length < fuel) :
    AddOctElement G fuel self t e = Except.ok t1 := by
  induction h generalizing fuel with
  | store self p b c i d g l o f hl =>
    obtain ⟨n, rfl⟩ : ∃ n, fuel = n + 1 := ⟨fuel - 1, by simp at hf; omega⟩
    rw [AddOctElement_node, if_pos hl]
  | descend self p b c i d g l o f sp child hl hrec ih =>
    obtain ⟨n, rfl⟩ : ∃ n, fuel = n + 1 := ⟨fuel - 1, by simp at hf; omega⟩
    rw [AddOctElement_node, if_neg hl, ih (by simpa using hf)]

end basics

/-! ## The effect of one call, node by node -/

section frame

variable (G : BoundingBoxOps B E)

theorem isNil_eq_true_iff (t : OctNode B E) : t.isNil = true ↔ t = OctNode.nil := by
  cases t <;> simp [OctNode.isNil]

theorem enteredChild_of_not_nil {self : NodeRef} {b : B} {c : Fin 8 → OctNode B E} {d : Nat}
    {o : TilerOptions} {k : Fin 8} (h : (c k).isNil = false) :
    enteredChild G self b c d o k = c k := by
  simp [enteredChild, h]

theorem enteredChild_of_nil {self : NodeRef} {b : B} {c : Fin 8 → OctNode B E} {d : Nat}
    {o : TilerOptions} {k : Fin 8} (h : (c k).isNil = true) :
    enteredChild G self b c d o k =
      NewOctNode (G.getOctantBoundingBox b k) o (wrapUint8 (d + 1)) (some self) := by
  simp [enteredChild, h]

/-- A field that cannot tell a new node from nil has the same value in the entered child and
in the slot. -/
theorem field_nodeAt_enteredChild {α : Type} (F : OctNode B E → α)
    (hF : ∀ (b : B) (o : TilerOptions) (d : Nat) (p : Option NodeRef),
      F (NewOctNode b o d p) = F OctNode.nil)
    (self : NodeRef) (b : B) (c : Fin 8 → OctNode B E) (d : Nat) (o : TilerOptions) (k : Fin 8)
    (q : NodeRef) :
    F ((enteredChild G self b c d o k).nodeAt q) = F ((c k).nodeAt q) := by
  by_cases hk : (c k).isNil = true
  · rw [enteredChild_of_nil G hk, (isNil_eq_true_iff _).1 hk]
    cases q with
    | nil => simpa using hF _ _ _ _
    | cons j q => rw [nodeAt_NewOctNode_cons]; simp [OctNode.Children]
  · rw [enteredChild_of_not_nil G (by simpa using hk)]

/-- Below the entered child nothing is new. -/
theorem nodeAt_enteredChild_cons (self : NodeRef) (b : B) (c : Fin 8 → OctNode B E) (d : Nat)
    (o : TilerOptions) (k j : Fin 8) (q : NodeRef) :
    (enteredChild G self b c d o k).nodeAt (j :: q) = (c k).nodeAt (j :: q) := by
  by_cases hk : (c k).isNil = true
  · rw [enteredChild_of_nil G hk, (isNil_eq_true_iff _).1 hk, nodeAt_NewOctNode_cons]; simp
  · rw [enteredChild_of_not_nil G (by simpa using hk)]

theorem Inserts.not_nil {e : E} {self sp : NodeRef} {t t1 : OctNode B E}
    (h : Inserts G e self t sp t1) : t.isNil = false ∧ t1.isNil = false := by
  cases h <;> simp [OctNode.isNil]

/-- A call on a new node returns only when the capacity is positive. -/
theorem Inserts.pos_of_new {e : E} {self sp : NodeRef} {t t1 : OctNode B E}
    (h : Inserts G e self t sp t1) (b : B) (o : TilerOptions) (d : Nat) (p : Option NodeRef)
    (ht : t = NewOctNode b o d p) : 0 < o.MaxNumPointsPerNode := by
  induction h generalizing b d p with
  | store self p1 b1 c i d1 g l o1 f hl =>
    simp only [NewOctNode, OctNode.node.injEq] at ht
    obtain ⟨-, -, -, -, -, -, rfl, rfl, -⟩ := ht
    exact hl
  | descend self p1 b1 c i d1 g l o1 f sp child hl hrec ih =>
    simp only [NewOctNode, OctNode.node.injEq] at ht
    obtain ⟨-, -, rfl, -, -, -, rfl, rfl, -⟩ := ht
    exact ih _ _ _ (enteredChild_of_nil G rfl)

/-- A call on a new node stores the element in that node. -/
theorem Inserts.path_of_new {e : E} {self sp : NodeRef} {t1 : OctNode B E} {b : B}
    {o : TilerOptions} {d : Nat} {p : Option NodeRef}
    (h : Inserts G e self (NewOctNode b o d p) sp t1) : sp = [] := by
  have hpos := Inserts.pos_of_new G h b o d p rfl
  generalize ht : (NewOctNode b o d p : OctNode B E) = t at h
  cases h with
  | store self p1 b1 c i d1 g l o1 f hl => rfl
  | descend self p1 b1 c i d1 g l o1 f sp child hl hrec =>
    simp only [NewOctNode, OctNode.node.injEq] at ht
    obtain ⟨-, -, -, -, -, -, rfl, rfl, -⟩ := ht
    exact absurd hpos hl

/-- The storing path of a call that returns is the path read off the tree before the call. -/
theorem Inserts.path_eq {e : E} {self sp : NodeRef} {t t1 : OctNode B E}
    (h : Inserts G e self t sp t1) : sp = storingPath G t e := by
  induction h with
  | store self p b c i d g l o f hl => simp [storingPath, hl]
  | descend self p b c i d g l o f sp child hl hrec ih =>
    simp only [storingPath, if_neg hl]
    congr 1
    by_cases hk : (c (G.getOctantFromElement b e)).isNil = true
    · rw [enteredChild_of_nil G hk] at hrec
      rw [Inserts.path_of_new G hrec, (isNil_eq_true_iff _).1 hk, storingPath]
    · rw [ih, enteredChild_of_not_nil G (by simpa using hk)]

/-- Items: the element is appended at the storing node and nowhere else. -/
theorem Inserts.items {e : E} {self sp : NodeRef} {t t1 : OctNode B E}
    (h : Inserts G e self t sp t1) (q : NodeRef) :
    (t1.nodeAt q).Items = (t.nodeAt q).Items ++ (if q = sp then [e] else []) := by
  induction h generalizing q with
  | store self p b c i d g l o f hl =>
    cases q with
    | nil => simp [OctNode.Items]
    | cons j q => simp [OctNode.Children]
  | descend self p b c i d g l o f sp child hl hrec ih =>
    cases q with
    | nil => simp [OctNode.Items]
    | cons j q =>
      simp only [nodeAt_cons, OctNode.Children]
      by_cases hj : j = G.getOctantFromElement b e
      · subst hj
        rw [Function.update_same, ih q,
          field_nodeAt_enteredChild G OctNode.Items (fun _ _ _ _ => rfl)]
        simp
      · rw [Function.update_noteq hj]
        simp [hj]

/-- LocalChildrenCount: incremented (as an `int32`) at the storing node and nowhere else. -/
theorem Inserts.localCount {e : E} {self sp : NodeRef} {t t1 : OctNode B E}
    (h : Inserts G e self t sp t1) (q : NodeRef) :
    (t1.nodeAt q).LocalChildrenCount =
      if q = sp then wrapInt32 ((t.nodeAt q).LocalChildrenCount + 1)
      else (t.nodeAt q).LocalChildrenCount := by
  induction h generalizing q with
  | store self p b c i d g l o f hl =>
    cases q with
    | nil => simp [OctNode.LocalChildrenCount]
    | cons j q => simp [OctNode.Children]
  | descend self p b c i d g l o f sp child hl hrec ih =>
    cases q with
    | nil => simp [OctNode.LocalChildrenCount]
    | cons j q =>
      simp only [nodeAt_cons, OctNode.Children]
      by_cases hj : j = G.getOctantFromElement b e
      · subst hj
        rw [Function.update_same, ih q,
          field_nodeAt_enteredChild G OctNode.LocalChildrenCount (fun _ _ _ _ => rfl)]
        simp
      · rw [Function.update_noteq hj]
        simp [hj]

/-- GlobalChildrenCount: incremented (as an `int64`) at the nodes of the storing path and
nowhere else. -/
theorem Inserts.globalCount {e : E} {self sp : NodeRef} {t t1 : OctNode B E}
    (h : Inserts G e self t sp t1) (q : NodeRef) :
    (t1.nodeAt q).GlobalChildrenCount =
      if q <+: sp then wrapInt64 ((t.nodeAt q).GlobalChildrenCount + 1)
      else (t.nodeAt q).GlobalChildrenCount := by
  induction h generalizing q with
  | store self p b c i d g l o f hl =>
    cases q with
    | nil => simp [OctNode.GlobalChildrenCount]
    | cons j q => simp [OctNode.Children]
  | descend self p b c i d g l o f sp child hl hrec ih =>
    cases q with
    | nil => simp [OctNode.GlobalChildrenCount]
    | cons j q =>
      simp only [nodeAt_cons, OctNode.Children]
      by_cases hj : j = G.getOctantFromElement b e
      · subst hj
        rw [Function.update_same, ih q,
          field_nodeAt_enteredChild G OctNode.GlobalChildrenCount (fun _ _ _ _ => rfl)]
        simp [List.cons_prefix_cons]
      · rw [Function.update_noteq hj]
        simp [hj, List.cons_prefix_cons]

theorem isNil_of_nodeAt {t : OctNode B E} {q : NodeRef} (h : (t.nodeAt q).isNil = false) :
    t.isNil = false := by
  cases t with
  | nil => simp [OctNode.isNil] at h
  | node _ _ _ _ _ _ _ _ _ => rfl

/-- Presence: the node at the storing path is present after the call, and no other path
changes between absent and present. -/
theorem Inserts.isNil {e : E} {self sp : NodeRef} {t t1 : OctNode B E}
    (h : Inserts G e self t sp t1) (q : NodeRef) :
    (t1.nodeAt q).isNil = if q = sp then false else (t.nodeAt q).isNil := by
  induction h generalizing q with
  | store self p b c i d g l o f hl =>
    cases q with
    | nil => simp [OctNode.isNil]
    | cons j q => simp [OctNode.Children]
  | descend self p b c i d g l o f sp child hl hrec ih =>
    cases q with
    | nil => simp [OctNode.isNil]
    | cons j q =>
      simp only [nodeAt_cons, OctNode.Children]
      by_cases hj : j = G.getOctantFromElement b e
      · subst hj
        rw [Function.update_same, ih q]
        by_cases hq : q = sp
        · simp [hq]
        · simp only [hq, if_false, List.cons.injEq, true_and]
          by_cases hk : (c (G.getOctantFromElement b e)).isNil = true
          · rw [enteredChild_of_nil G hk] at hrec
            have hsp := Inserts.path_of_new G hrec
            subst hsp
            cases q with
            | nil => exact absurd rfl hq
            | cons j2 q2 => rw [nodeAt_enteredChild_cons]
          · rw [enteredChild_of_not_nil G (by simpa using hk)]
      · rw [Function.update_noteq hj]
        simp [hj]

/-- Frame: a node that is not on the storing path is unchanged, with its whole subtree. -/
theorem Inserts.frame {e : E} {self sp : NodeRef} {t t1 : OctNode B E}
    (h : Inserts G e self t sp t1) (q : NodeRef) (hq : ¬ q <+: sp) :
    t1.nodeAt q = t.nodeAt q := by
  induction h generalizing q with
  | store self p b c i d g l o f hl =>
    cases q with
    | nil => simp at hq
    | cons j q => simp [OctNode.Children]
  | descend self p b c i d g l o f sp child hl hrec ih =>
    cases q with
    | nil => simp at hq
    | cons j q =>
      simp only [nodeAt_cons, OctNode.Children]
      by_cases hj : j = G.getOctantFromElement b e
      · subst hj
        have hq2 : ¬ q <+: sp := by simpa [List.cons_prefix_cons] using hq
        rw [Function.update_same, ih q hq2]
        cases q with
        | nil => simp at hq2
        | cons j2 q2 => rw [nodeAt_enteredChild_cons]
      · rw [Function.update_noteq hj]

/-- The fields set at creation are the same after the call, at every node present before. -/
theorem Inserts.immutable {e : E} {self sp : NodeRef} {t t1 : OctNode B E}
    (h : Inserts G e self t sp t1) (q : NodeRef) (hq : (t.nodeAt q).isNil = false) :
    (t1.nodeAt q).BoundingBox = (t.nodeAt q).BoundingBox ∧
    (t1.nodeAt q).Parent = (t.nodeAt q).Parent ∧
    (t1.nodeAt q).Depth = (t.nodeAt q).Depth ∧
    (t1.nodeAt q).Opts = (t.nodeAt q).Opts := by
  induction h generalizing q with
  | store self p b c i d g l o f hl =>
    cases q with
    | nil => simp [OctNode.BoundingBox, OctNode.Parent, OctNode.Depth, OctNode.Opts]
    | cons j q => simp [OctNode.Children]
  | descend self p b c i d g l o f sp child hl hrec ih =>
    cases q with
    | nil => simp [OctNode.BoundingBox, OctNode.Parent, OctNode.Depth, OctNode.Opts]
    | cons j q =>
      simp only [nodeAt_cons, OctNode.Children] at hq ⊢
      by_cases hj : j = G.getOctantFromElement b e
      · subst hj
        have hk := isNil_of_nodeAt hq
        rw [enteredChild_of_not_nil G hk] at ih
        rw [Function.update_same]
        exact ih q hq
      · rw [Function.update_noteq hj]
        simp

/-- IsLeaf of a node present before the call changes at most from true to false. -/
theorem Inserts.isLeaf_false {e : E} {self sp : NodeRef} {t t1 : OctNode B E}
    (h : Inserts G e self t sp t1) (q : NodeRef) (hq : (t.nodeAt q).isNil = false)
    (hf : (t.nodeAt q).IsLeaf = false) : (t1.nodeAt q).IsLeaf = false := by
  induction h generalizing q with
  | store self p b c i d g l o f hl =>
    cases q with
    | nil => simpa [OctNode.IsLeaf] using hf
    | cons j q => simpa [OctNode.Children] using hf
  | descend self p b c i d g l o f sp child hl hrec ih =>
    cases q with
    | nil =>
      simp only [nodeAt_empty, OctNode.IsLeaf] at hf ⊢
      simp [hf]
    | cons j q =>
      simp only [nodeAt_cons, OctNode.Children] at hq hf ⊢
      by_cases hj : j = G.getOctantFromElement b e
      · subst hj
        have hk := isNil_of_nodeAt hq
        rw [enteredChild_of_not_nil G hk] at ih
        rw [Function.update_same]
        exact ih q hq hf
      · rw [Function.update_noteq hj]
        exact hf

/-- Every node strictly above the storing node was present and at capacity. -/
theorem Inserts.prefix_full {e : E} {self sp : NodeRef} {t t1 : OctNode B E}
    (h : Inserts G e self t sp t1) (q : NodeRef) (hq : q <+: sp) (hne : q ≠ sp) :
    (t.nodeAt q).isNil = false ∧
      ¬ (t.nodeAt q).LocalChildrenCount < (t.nodeAt q).MaxNumPointsPerNode := by
  induction h generalizing q with
  | store self p b c i d g l o f hl =>
    exact absurd (List.prefix_nil.1 hq) hne
  | descend self p b c i d g l o f sp child hl hrec ih =>
    cases q with
    | nil =>
      simpa [OctNode.isNil, OctNode.LocalChildrenCount, OctNode.MaxNumPointsPerNode] using hl
    | cons j q =>
      obtain ⟨rfl, hq2⟩ := List.cons_prefix_cons.1 hq
      have hne2 : q ≠ sp := fun hc => hne (by rw [hc])
      simp only [nodeAt_cons, OctNode.Children]
      by_cases hk : (c (G.getOctantFromElement b e)).isNil = true
      · rw [enteredChild_of_nil G hk] at hrec
        have hsp := Inserts.path_of_new G hrec
        subst hsp
        exact absurd (List.prefix_nil.1 hq2) hne2
      · rw [enteredChild_of_not_nil G (by simpa using hk)] at ih
        exact ih q hq2 hne2

/-- The storing node was absent (and is created by the call) or was below capacity. -/
theorem Inserts.storing_below {e : E} {self sp : NodeRef} {t t1 : OctNode B E}
    (h : Inserts G e self t sp t1) :
    (t.nodeAt sp).isNil = true ∨
      (t.nodeAt sp).LocalChildrenCount < (t.nodeAt sp).MaxNumPointsPerNode := by
  induction h with
  | store self p b c i d g l o f hl =>
    right
    simpa [OctNode.LocalChildrenCount, OctNode.MaxNumPointsPerNode] using hl
  | descend self p b c i d g l o f sp child hl hrec ih =>
    simp only [nodeAt_cons, OctNode.Children]
    by_cases hk : (c (G.getOctantFromElement b e)).isNil = true
    · left
      rw [(isNil_eq_true_iff _).1 hk]
      simp [OctNode.isNil]
    · rw [enteredChild_of_not_nil G (by simpa using hk)] at ih
      exact ih

/-- Every step of the storing path enters the slot of the element's octant in the box of the
node it leaves. -/
theorem Inserts.octant {e : E} {self sp : NodeRef} {t t1 : OctNode B E}
    (h : Inserts G e self t sp t1) (q : NodeRef) (k : Fin 8) (hq : q ++ [k] <+: sp) :
    ∃ b, (t.nodeAt q).BoundingBox = some b ∧ k = G.getOctantFromElement b e := by
  induction h generalizing q with
  | store self p b c i d g l o f hl =>
    have := List.prefix_nil.1 hq
    simp at this
  | descend self p b c i d g l o f sp child hl hrec ih =>
    cases q with
    | nil =>
      obtain ⟨rfl, -⟩ := List.cons_prefix_cons.1 hq
      exact ⟨b, rfl, rfl⟩
    | cons j q =>
      obtain ⟨rfl, hq2⟩ := List.cons_prefix_cons.1 hq
      simp only [nodeAt_cons, OctNode.Children]
      by_cases hk : (c (G.getOctantFromElement b e)).isNil = true
      · rw [enteredChild_of_nil G hk] at hrec
        have hsp := Inserts.path_of_new G hrec
        subst hsp
        have := List.prefix_nil.1 hq2
        simp at this
      · rw [enteredChild_of_not_nil G (by simpa using hk)] at ih
        exact ih q hq2

end frame

/-! ## Properties of every node -/

section everyNode

variable (G : BoundingBoxOps B E)

theorem everyNode_nil (P : OctNode B E → Prop) : EveryNode P (OctNode.nil : OctNode B E) := by
  intro q hq
  simp [OctNode.isNil] at hq

theorem everyNode_node (P : OctNode B E → Prop) (p : Option NodeRef) (b : B)
    (c : Fin 8 → OctNode B E) (i : List E) (d : Nat) (g l : Int) (o : TilerOptions) (f : Bool) :
    EveryNode P (OctNode.node p b c i d g l o f) ↔
      P (OctNode.node p b c i d g l o f) ∧ ∀ k, EveryNode P (c k) := by
  constructor
  · intro h
    exact ⟨h [] rfl, fun k q hq => h (k :: q) hq⟩
  · rintro ⟨h0, hk⟩ q hq
    cases q with
    | nil => exact h0
    | cons j q => exact hk j q hq

theorem everyNode_new (P : OctNode B E → Prop) (b : B) (o : TilerOptions) (d : Nat)
    (p : Option NodeRef) :
    EveryNode P (NewOctNode b o d p : OctNode B E) ↔ P (NewOctNode b o d p) := by
  unfold NewOctNode
  rw [everyNode_node]
  exact ⟨fun h => h.1, fun h => ⟨h, fun _ => everyNode_nil P⟩⟩

theorem everyNode_nodeAt {P : OctNode B E → Prop} {t : OctNode B E} (h : EveryNode P t)
    (q : NodeRef) : EveryNode P (t.nodeAt q) := by
  intro r hr
  rw [← nodeAt_append] at hr ⊢
  exact h _ hr

theorem everyNode_mono {P Q : OctNode B E → Prop} (himp : ∀ m, P m → Q m) {t : OctNode B E}
    (h : EveryNode P t) : EveryNode Q t :=
  fun q hq => himp _ (h q hq)

/-- How a property of every node is carried through one call: `P` before, `Q` after. -/
theorem Inserts.everyNode {P Q : OctNode B E → Prop} {e : E}
    (himp : ∀ m, P m → Q m)
    (hnew : ∀ (self : NodeRef) (p : Option NodeRef) (b : B) (c : Fin 8 → OctNode B E)
      (i : List E) (d : Nat) (g l : Int) (o : TilerOptions) (f : Bool),
      P (OctNode.node p b c i d g l o f) → ¬ l < o.MaxNumPointsPerNode →
      P (NewOctNode (G.getOctantBoundingBox b (G.getOctantFromElement b e)) o
        (wrapUint8 (d + 1)) (some self)))
    (hstore : ∀ (p : Option NodeRef) (b : B) (c : Fin 8 → OctNode B E)
      (i : List E) (d : Nat) (g l : Int) (o : TilerOptions) (f : Bool),
      P (OctNode.node p b c i d g l o f) → l < o.MaxNumPointsPerNode →
      Q (OctNode.node p b c (i ++ [e]) d (wrapInt64 (g + 1)) (wrapInt32 (l + 1)) o f))
    (hdesc : ∀ (self : NodeRef) (p : Option NodeRef) (b : B) (c : Fin 8 → OctNode B E)
      (i : List E) (d : Nat) (g l : Int) (o : TilerOptions) (f : Bool) (sp : NodeRef)
      (child : OctNode B E),
      P (OctNode.node p b c i d g l o f) → ¬ l < o.MaxNumPointsPerNode →
      Inserts G e (self ++ [G.getOctantFromElement b e])
        (enteredChild G self b c d o (G.getOctantFromElement b e)) sp child →
      Q (OctNode.node p b (Function.update c (G.getOctantFromElement b e) child) i d
        (wrapInt64 (g + 1)) l o (f && !(c (G.getOctantFromElement b e)).isNil)))
    {self sp : NodeRef} {t t1 : OctNode B E}
    (h : Inserts G e self t sp t1) (ht : EveryNode P t) : EveryNode Q t1 := by
  induction h with
  | store self p b c i d g l o f hl =>
    rw [everyNode_node] at ht ⊢
    exact ⟨hstore p b c i d g l o f ht.1 hl, fun k => everyNode_mono himp (ht.2 k)⟩
  | descend self p b c i d g l o f sp child hl hrec ih =>
    rw [everyNode_node] at ht ⊢
    refine ⟨hdesc self p b c i d g l o f sp child ht.1 hl hrec, fun j => ?_⟩
    by_cases hj : j = G.getOctantFromElement b e
    · subst hj
      rw [Function.update_same]
      apply ih
      by_cases hk : (c (G.getOctantFromElement b e)).isNil = true
      · rw [enteredChild_of_nil G hk, everyNode_new]
        exact hnew self p b c i d g l o f ht.1 hl
      · rw [enteredChild_of_not_nil G (by simpa using hk)]
        exact ht.2 _
    · rw [Function.update_noteq hj]
      exact everyNode_mono himp (ht.2 j)

/-- With a positive capacity at every node, a call on a node returns. -/
theorem inserts_exists (e : E) (t : OctNode B E) (self : NodeRef) (hn : t.isNil = false)
    (hcap : EveryNode (fun m => 1 ≤ m.MaxNumPointsPerNode) t) :
    ∃ sp t1, Inserts G e self t sp t1 := by
  induction t generalizing self with
  | nil => simp [OctNode.isNil] at hn
  | node p b c i d g l o f ih =>
    rw [everyNode_node] at hcap
    by_cases hl : l < o.MaxNumPointsPerNode
    · exact ⟨_, _, Inserts.store self p b c i d g l o f hl⟩
    · have hchild : ∃ sp child, Inserts G e (self ++ [G.getOctantFromElement b e])
          (enteredChild G self b c d o (G.getOctantFromElement b e)) sp child := by
        by_cases hk : (c (G.getOctantFromElement b e)).isNil = true
        · rw [enteredChild_of_nil G hk]
          have h1 : 1 ≤ o.MaxNumPointsPerNode := hcap.1
          exact ⟨_, _, Inserts.store _ _ _ _ _ _ _ _ _ _ (by omega)⟩
        · have hk2 : (c (G.getOctantFromElement b e)).isNil = false := by simpa using hk
          rw [enteredChild_of_not_nil G hk2]
          exact ih _ _ hk2 (hcap.2 _)
      obtain ⟨sp, child, hc⟩ := hchild
      exact ⟨_, _, Inserts.descend self p b c i d g l o f sp child hl hc⟩

/-- A positive capacity at every node is kept by a call. -/
theorem Inserts.capacity_pos {e : E} {self sp : NodeRef} {t t1 : OctNode B E}
    (h : Inserts G e self t sp t1)
    (ht : EveryNode (fun m => 1 ≤ m.MaxNumPointsPerNode) t) :
    EveryNode (fun m => 1 ≤ m.MaxNumPointsPerNode) t1 := by
  refine Inserts.everyNode G (fun _ hm => hm) ?_ ?_ ?_ h ht
  · intro self p b c i d g l o f hP _
    exact hP
  · intro p b c i d g l o f hP _
    exact hP
  · intro self p b c i d g l o f sp child hP _ _
    exact hP

end everyNode

/-! ## The elements stored in a tree -/

section stored

variable (G : BoundingBoxOps B E)

/-- Replacing the list of one index by a list with one more element adds that element. -/
theorem perm_flatMap_update {ι α : Type} (L : List ι) (hL : L.Nodup) (k : ι) (hk : k ∈ L)
    (f f1 : ι → List α) (x : α) (hx : (f1 k).Perm (x :: f k)) (hf : ∀ j, j ≠ k → f1 j = f j) :
    (L.flatMap f1).Perm (x :: L.flatMap f) := by
  induction L with
  | nil => simp at hk
  | cons a L ih =>
    rw [List.nodup_cons] at hL
    simp only [List.flatMap_cons]
    by_cases ha : a = k
    · subst ha
      have hrest : L.flatMap f1 = L.flatMap f := by
        apply List.flatMap_congr
        intro j hj
        exact hf j (fun hc => hL.1 (hc ▸ hj))
      rw [hrest]
      exact List.Perm.append_right _ hx
    · have hk2 : k ∈ L := by
        rcases List.mem_cons.1 hk with h | h
        · exact absurd h.symm ha
        · exact h
      rw [hf a ha]
      exact (List.Perm.append_left _ (ih hL.2 hk2)).trans List.perm_middle

@[simp] theorem allItems_new (b : B) (o : TilerOptions) (d : Nat) (p : Option NodeRef) :
    (NewOctNode b o d p : OctNode B E).allItems = [] := by
  simp [NewOctNode, OctNode.allItems]

theorem allItems_enteredChild (self : NodeRef) (b : B) (c : Fin 8 → OctNode B E) (d : Nat)
    (o : TilerOptions) (k : Fin 8) :
    (enteredChild G self b c d o k).allItems = (c k).allItems := by
  by_cases hk : (c k).isNil = true
  · rw [enteredChild_of_nil G hk, (isNil_eq_true_iff _).1 hk]
    simp [NewOctNode, OctNode.allItems]
  · rw [enteredChild_of_not_nil G (by simpa using hk)]

/-- One call adds exactly the inserted element to the elements stored in the tree. -/
theorem Inserts.allItems_perm {e : E} {self sp : NodeRef} {t t1 : OctNode B E}
    (h : Inserts G e self t sp t1) : t1.allItems.Perm (e :: t.allItems) := by
  induction h with
  | store self p b c i d g l o f hl =>
    simp only [OctNode.allItems, List.append_assoc, List.singleton_append]
    exact List.perm_middle
  | descend self p b c i d g l o f sp child hl hrec ih =>
    simp only [OctNode.allItems]
    rw [allItems_enteredChild] at ih
    have hperm := perm_flatMap_update (List.finRange 8) (List.nodup_finRange 8)
      (G.getOctantFromElement b e) (List.mem_finRange _)
      (fun k => (c k).allItems)
      (fun k => (Function.update c (G.getOctantFromElement b e) child k).allItems) e
      (by simpa using ih)
      (by intro j hj; simp [Function.update_noteq hj])
    exact (List.Perm.append_left i hperm).trans List.perm_middle

theorem allItems_child_length_le (p : Option NodeRef) (b : B)
    (c : Fin 8 → OctNode B E) (i : List E) (d : Nat) (g l : Int) (o : TilerOptions) (f : Bool)
    (k : Fin 8) :
    (c k).allItems.length ≤ (OctNode.node p b c i d g l o f).allItems.length := by
  have hsub : ((c k).allItems).Sublist ((List.finRange 8).flatMap (fun j => (c j).allItems)) := by
    rw [List.flatMap]
    exact List.sublist_flatten_of_mem (List.mem_map.2 ⟨k, List.mem_finRange k, rfl⟩)
  have := hsub.length_le
  simp only [OctNode.allItems, List.length_append]
  omega

theorem allItems_nodeAt_length_le (t : OctNode B E) (q : NodeRef) :
    (t.nodeAt q).allItems.length ≤ t.allItems.length := by
  induction q generalizing t with
  | nil => exact le_refl _
  | cons k q ih =>
    cases t with
    | nil => simp [OctNode.allItems]
    | node p b c i d g l o f =>
      exact le_trans (ih (c k)) (allItems_child_length_le p b c i d g l o f k)

end stored

/-! ## Serial insertion of a sequence -/

section serial

variable (G : BoundingBoxOps B E)

theorem addAll_cons (fuel : Nat) (t : OctNode B E) (e : E) (es : List E) :
    addAll G fuel t (e :: es) =
      match AddOctElement G fuel [] t e with
      | Except.error f => Except.error f
      | Except.ok t1 => addAll G fuel t1 es := rfl

/-- Induction over a serial run that returns: a property of the elements inserted so far and
the tree, kept by every call, holds at the end. -/
theorem addAll_induct {I : List E → OctNode B E → Prop}
    (hstep : ∀ (acc : List E) (t : OctNode B E) (e : E) (sp : NodeRef) (t1 : OctNode B E),
      I acc t → Inserts G e [] t sp t1 → I (acc ++ [e]) t1)
    {fuel : Nat} (es acc : List E) (t t1 : OctNode B E) (h0 : I acc t)
    (h : addAll G fuel t es = Except.ok t1) : I (acc ++ es) t1 := by
  induction es generalizing acc t with
  | nil =>
    simp only [addAll, Except.ok.injEq] at h
    subst h
    simpa using h0
  | cons e es ih =>
    rw [addAll_cons] at h
    cases hr : AddOctElement G fuel [] t e with
    | error x => rw [hr] at h; cases h
    | ok t2 =>
      rw [hr] at h
      obtain ⟨sp, hsp, -⟩ := AddOctElement_inserts G hr
      have := ih (acc ++ [e]) t2 (hstep acc t e sp t2 h0 hsp) h
      simpa using this

theorem Inserts.path_length_le {e : E} {self sp : NodeRef} {t t1 : OctNode B E} {n : Nat}
    (h : Inserts G e self t sp t1) (hb : DepthBelow n t) : sp.length ≤ n := by
  rcases List.eq_nil_or_concat sp with hsp | ⟨q, k, hsp⟩
  · simp [hsp]
  · rw [List.concat_eq_append] at hsp
    have hpre : q <+: sp := ⟨[k], hsp.symm⟩
    have hne : q ≠ sp := by
      intro hc
      have := congrArg List.length hsp
      rw [← hc] at this
      simp at this
    have := hb q (Inserts.prefix_full G h q hpre hne).1
    rw [hsp]
    simp
    omega

theorem Inserts.depthBelow {e : E} {self sp : NodeRef} {t t1 : OctNode B E} {n : Nat}
    (h : Inserts G e self t sp t1) (hb : DepthBelow n t) : DepthBelow (n + 1) t1 := by
  intro q hq
  rw [Inserts.isNil G h q] at hq
  by_cases hqs : q = sp
  · have := Inserts.path_length_le G h hb
    rw [hqs]
    omega
  · rw [if_neg hqs] at hq
    have := hb q hq
    omega

theorem depthBelow_new (b : B) (o : TilerOptions) (d : Nat) (p : Option NodeRef) :
    DepthBelow 1 (NewOctNode b o d p : OctNode B E) := by
  intro q hq
  cases q with
  | nil => simp
  | cons k q => rw [nodeAt_NewOctNode_cons] at hq; simp [OctNode.isNil] at hq

/-- With a positive capacity at every node and fuel for the deepest descent, a serial run
returns. -/
theorem addAll_exists (es : List E) (t : OctNode B E) (n fuel : Nat) (hn : t.isNil = false)
    (hcap : EveryNode (fun m => 1 ≤ m.MaxNumPointsPerNode) t) (hb : DepthBelow n t)
    (hfuel : n + es.length ≤ fuel) :
    ∃ t1, addAll G fuel t es = Except.ok t1 := by
  induction es generalizing t n with
  | nil => exact ⟨t, rfl⟩
  | cons e es ih =>
    obtain ⟨sp, t2, h2⟩ := inserts_exists G e t [] hn hcap
    have hlen := Inserts.path_length_le G h2 hb
    simp only [List.length_cons] at hfuel
    have hrun := AddOctElement_of_inserts G h2 (show sp.length < fuel by omega)
    obtain ⟨t1, h1⟩ := ih t2 (n + 1) (Inserts.not_nil G h2).2 (Inserts.capacity_pos G h2 hcap)
      (Inserts.depthBelow G h2 hb) (by omega)
    exact ⟨t1, by rw [addAll_cons, hrun]; exact h1⟩

/-- A serial run on a new root with a positive capacity returns when the fuel exceeds the
number of elements. -/
theorem addAll_new_exists (b : B) (o : TilerOptions) (d : Nat) (p : Option NodeRef)
    (hcap : 1 ≤ o.MaxNumPointsPerNode) (es : List E) (fuel : Nat) (hfuel : es.length < fuel) :
    ∃ t, addAll G fuel (NewOctNode b o d p) es = Except.ok t := by
  refine addAll_exists G es (NewOctNode b o d p) 1 fuel rfl ?_ (depthBelow_new b o d p)
    (by omega)
  rw [everyNode_new]
  exact hcap

end serial

/-! ## Invariants of the trees built by serial insertion -/

section invariants

variable (G : BoundingBoxOps B E)

theorem wrapInt64_succ {x : Int} (h0 : -9223372036854775808 ≤ x + 1)
    (h1 : x + 1 < 9223372036854775808) : wrapInt64 (x + 1) = x + 1 := by
  unfold wrapInt64
  omega

theorem wrapInt32_succ {x : Int} (h0 : -2147483648 ≤ x + 1) (h1 : x + 1 < 2147483648) :
    wrapInt32 (x + 1) = x + 1 := by
  unfold wrapInt32
  omega

/-- The counts of all subtrees stay equal to the numbers of stored elements through one call,
as long as the total stays in the `int64` range. -/
theorem Inserts.global_ok {e : E} {self sp : NodeRef} {t t1 : OctNode B E}
    (h : Inserts G e self t sp t1)
    (ht : EveryNode (fun m => m.GlobalChildrenCount = (m.allItems.length : Int)) t)
    (hb : (t.allItems.length : Int) + 1 < 9223372036854775808) :
    EveryNode (fun m => m.GlobalChildrenCount = (m.allItems.length : Int)) t1 := by
  have hpre : EveryNode (fun m => m.GlobalChildrenCount = (m.allItems.length : Int) ∧
      (m.allItems.length : Int) + 1 < 9223372036854775808) t := by
    intro q hq
    refine ⟨ht q hq, ?_⟩
    have := allItems_nodeAt_length_le t q
    omega
  refine Inserts.everyNode G (fun _ hm => hm.1) ?_ ?_ ?_ h hpre
  · intro self p b c i d g l o f _ _
    rw [allItems_new]
    simp [NewOctNode, OctNode.GlobalChildrenCount]
  · intro p b c i d g l o f hP hl
    have hlen := (Inserts.allItems_perm G
      (@Inserts.store B E G e [] p b c i d g l o f hl)).length_eq
    simp only [OctNode.GlobalChildrenCount] at hP ⊢
    obtain ⟨hg, hbd⟩ := hP
    rw [hlen, List.length_cons, wrapInt64_succ (by omega) (by omega), hg]
    push_cast
    rfl
  · intro self p b c i d g l o f sp child hP hl hrec
    have hlen := (Inserts.allItems_perm G
      (Inserts.descend self p b c i d g l o f sp child hl hrec)).length_eq
    simp only [OctNode.GlobalChildrenCount] at hP ⊢
    obtain ⟨hg, hbd⟩ := hP
    rw [hlen, List.length_cons, wrapInt64_succ (by omega) (by omega), hg]
    push_cast
    rfl

/-- LocalChildrenCount equals the length of Items at every node, through one call. -/
theorem Inserts.local_ok {e : E} {self sp : NodeRef} {t t1 : OctNode B E}
    (h : Inserts G e self t sp t1)
    (ht : EveryNode (fun m => m.LocalChildrenCount = (m.Items.length : Int)) t) :
    EveryNode (fun m => m.LocalChildrenCount = (m.Items.length : Int)) t1 := by
  refine Inserts.everyNode G (fun _ hm => hm) ?_ ?_ ?_ h ht
  · intro self p b c i d g l o f _ _
    simp [NewOctNode, OctNode.LocalChildrenCount, OctNode.Items]
  · intro p b c i d g l o f hP hl
    have h32 := o.isInt32.2
    simp only [OctNode.LocalChildrenCount, OctNode.Items] at hP ⊢
    rw [wrapInt32_succ (by omega) (by omega)]
    simp [hP]
  · intro self p b c i d g l o f sp child hP _ _
    exact hP

/-- The capacity bound on Items, together with the equality of LocalChildrenCount and the
length of Items on which the test of the code relies, through one call. -/
theorem Inserts.bound_ok {e : E} {self sp : NodeRef} {t t1 : OctNode B E}
    (h : Inserts G e self t sp t1)
    (ht : EveryNode (fun m => m.LocalChildrenCount = (m.Items.length : Int) ∧
      (m.Items.length : Int) ≤ m.MaxNumPointsPerNode) t) :
    EveryNode (fun m => m.LocalChildrenCount = (m.Items.length : Int) ∧
      (m.Items.length : Int) ≤ m.MaxNumPointsPerNode) t1 := by
  refine Inserts.everyNode G (fun _ hm => hm) ?_ ?_ ?_ h ht
  · intro self p b c i d g l o f hP hl
    simp only [NewOctNode, OctNode.LocalChildrenCount, OctNode.Items,
      OctNode.MaxNumPointsPerNode] at hP ⊢
    simp only [List.length_nil, Nat.cast_zero, true_and]
    omega
  · intro p b c i d g l o f hP hl
    have h32 := o.isInt32.2
    simp only [OctNode.LocalChildrenCount, OctNode.Items, OctNode.MaxNumPointsPerNode] at hP ⊢
    rw [wrapInt32_succ (by omega) (by omega)]
    simp only [List.length_append, List.length_singleton, Nat.cast_add, Nat.cast_one]
    omega
  · intro self p b c i d g l o f sp child hP _ _
    exact hP

/-- Every node keeps the options of the root, through one call. -/
theorem Inserts.opts_ok {e : E} {self sp : NodeRef} {t t1 : OctNode B E} (o0 : TilerOptions)
    (h : Inserts G e self t sp t1) (ht : EveryNode (fun m => m.Opts = some o0) t) :
    EveryNode (fun m => m.Opts = some o0) t1 := by
  refine Inserts.everyNode G (fun _ hm => hm) ?_ ?_ ?_ h ht
  · intro self p b c i d g l o f hP _
    exact hP
  · intro p b c i d g l o f hP _
    exact hP
  · intro self p b c i d g l o f sp child hP _ _
    exact hP

theorem maxNumPointsPerNode_of_opts {m : OctNode B E} {o : TilerOptions} (h : m.Opts = some o) :
    m.MaxNumPointsPerNode = o.MaxNumPointsPerNode := by
  cases m with
  | nil => simp [OctNode.Opts] at h
  | node _ _ _ _ _ _ _ o1 _ =>
    simp only [OctNode.Opts, Option.some.injEq] at h
    simp [OctNode.MaxNumPointsPerNode, h]

end invariants

/-! ## The claims on serial insertion into a new root -/

section claims

variable (G : BoundingBoxOps B E)

/-- C1 (conservation). For every capacity of at least one and every sequence of elements
inserted one at a time into a root made by `NewOctNode`, the run returns, and the
concatenation of the `Items` of all nodes of the resulting tree is a permutation of the
inserted sequence, so its length is the number of insertions: no element is lost and none is
stored twice. -/
theorem conservation (b : B) (o : TilerOptions) (d : Nat) (p : Option NodeRef)
    (hcap : 1 ≤ o.MaxNumPointsPerNode) (es : List E) (fuel : Nat) (hfuel : es.length < fuel) :
    ∃ t, addAll G fuel (NewOctNode b o d p) es = Except.ok t ∧
      t.allItems.Perm es ∧ t.allItems.length = es.length := by
  obtain ⟨t, ht⟩ := addAll_new_exists G b o d p hcap es fuel hfuel
  have hperm : t.allItems.Perm ([] ++ es) := by
    refine addAll_induct G (I := fun acc m => m.allItems.Perm acc) ?_ es []
      (NewOctNode b o d p) t ?_ ht
    · intro acc m e sp m1 hI hins
      exact (Inserts.allItems_perm G hins).trans
        ((List.Perm.cons e hI).trans (List.perm_append_singleton e acc).symm)
    · simp
  rw [List.nil_append] at hperm
  exact ⟨t, ht, hperm, hperm.length_eq⟩

/-- C2 (global count consistency). For every capacity of at least one and every sequence of
fewer than 2^63 elements inserted one at a time into a root made by `NewOctNode`, the run
returns, the root's `GlobalChildrenCount` is the number of insertions, and at every node of
the resulting tree `GlobalChildrenCount` is the number of elements stored in `Items` over the
subtree of that node. -/
theorem global_count_consistency (b : B) (o : TilerOptions) (d : Nat) (p : Option NodeRef)
    (hcap : 1 ≤ o.MaxNumPointsPerNode) (es : List E)
    (hrange : es.length < 9223372036854775808) (fuel : Nat) (hfuel : es.length < fuel) :
    ∃ t, addAll G fuel (NewOctNode b o d p) es = Except.ok t ∧
      t.GlobalChildrenCount = (es.length : Int) ∧
      ∀ q : NodeRef, (t.nodeAt q).isNil = false →
        (t.nodeAt q).GlobalChildrenCount = ((t.nodeAt q).allItems.length : Int) := by
  obtain ⟨t, ht⟩ := addAll_new_exists G b o d p hcap es fuel hfuel
  have hinv := addAll_induct G
    (I := fun acc m => acc.length < 9223372036854775808 →
      m.isNil = false ∧ m.allItems.length = acc.length ∧
      EveryNode (fun m => m.GlobalChildrenCount = (m.allItems.length : Int)) m)
    (by
      intro acc m e sp m1 hI hins hlen
      simp only [List.length_append, List.length_singleton] at hlen
      obtain ⟨-, hl, hall⟩ := hI (by omega)
      have hlen1 := (Inserts.allItems_perm G hins).length_eq
      refine ⟨(Inserts.not_nil G hins).2, ?_, Inserts.global_ok G hins hall (by omega)⟩
      simp only [List.length_cons] at hlen1
      simp [hlen1, hl])
    es [] (NewOctNode b o d p) t
    (by
      intro _
      refine ⟨rfl, by simp, (everyNode_new _ b o d p).2 ?_⟩
      rw [allItems_new]
      simp [NewOctNode, OctNode.GlobalChildrenCount])
    ht (by simpa using hrange)
  obtain ⟨hnil, hlen, hall⟩ := hinv
  refine ⟨t, ht, ?_, hall⟩
  have := hall [] hnil
  simp only [nodeAt_empty] at this
  rw [this, hlen]
  simp

/-- C3 (serialized capacity bound). For every capacity of at least one and every sequence of
elements inserted one at a time into a root made by `NewOctNode`, the run returns and every
node of the resulting tree has the options of the root and at most `MaxNumPointsPerNode`
elements in `Items`. -/
theorem serialized_capacity_bound (b : B) (o : TilerOptions) (d : Nat) (p : Option NodeRef)
    (hcap : 1 ≤ o.MaxNumPointsPerNode) (es : List E) (fuel : Nat) (hfuel : es.length < fuel) :
    ∃ t, addAll G fuel (NewOctNode b o d p) es = Except.ok t ∧
      ∀ q : NodeRef, (t.nodeAt q).isNil = false →
        (t.nodeAt q).Opts = some o ∧
        ((t.nodeAt q).Items.length : Int) ≤ o.MaxNumPointsPerNode := by
  obtain ⟨t, ht⟩ := addAll_new_exists G b o d p hcap es fuel hfuel
  have hinv := addAll_induct G
    (I := fun _ m => EveryNode (fun m => m.Opts = some o) m ∧
      EveryNode (fun m => m.LocalChildrenCount = (m.Items.length : Int) ∧
        (m.Items.length : Int) ≤ m.MaxNumPointsPerNode) m)
    (fun _ _ _ _ _ hI hins => ⟨Inserts.opts_ok G o hins hI.1, Inserts.bound_ok G hins hI.2⟩)
    es [] (NewOctNode b o d p) t
    (by
      refine ⟨(everyNode_new _ b o d p).2 rfl, (everyNode_new _ b o d p).2 ?_⟩
      simp only [NewOctNode, OctNode.LocalChildrenCount, OctNode.Items,
        OctNode.MaxNumPointsPerNode, List.length_nil, Nat.cast_zero, true_and]
      omega)
    ht
  refine ⟨t, ht, fun q hq => ⟨hinv.1 q hq, ?_⟩⟩
  have := (hinv.2 q hq).2
  rwa [maxNumPointsPerNode_of_opts (hinv.1 q hq)] at this

/-- C4 (local count invariant). After `NewOctNode` (the empty sequence) and after every
serial `AddOctElement` call on the tree grown from it, every node of the tree has
`LocalChildrenCount` equal to the length of `Items`. -/
theorem local_count_invariant (b : B) (o : TilerOptions) (d : Nat) (p : Option NodeRef)
    (es : List E) (fuel : Nat) (t : OctNode B E)
    (h : addAll G fuel (NewOctNode b o d p) es = Except.ok t) :
    ∀ q : NodeRef, (t.nodeAt q).isNil = false →
      (t.nodeAt q).LocalChildrenCount = ((t.nodeAt q).Items.length : Int) := by
  refine addAll_induct G
    (I := fun _ m => EveryNode (fun m => m.LocalChildrenCount = (m.Items.length : Int)) m)
    (fun _ _ _ _ _ hI hins => Inserts.local_ok G hins hI) es [] (NewOctNode b o d p) t
    ((everyNode_new _ b o d p).2 ?_) h
  simp [NewOctNode, OctNode.LocalChildrenCount, OctNode.Items]

/-- Witness of C1: the four insertions 1, 2, 3, 5 with capacity three. -/
theorem conservation_witness :
    (1 : Int) ≤ exampleOpts.MaxNumPointsPerNode ∧ [1, 2, 3, 5].length < 5 ∧
    ∃ t, addAll exampleOps 5 (NewOctNode 0 exampleOpts 0 none) [1, 2, 3, 5] = Except.ok t ∧
      t.allItems.Perm [1, 2, 3, 5] ∧ t.allItems.length = [1, 2, 3, 5].length :=
  ⟨by decide, by decide,
    conservation exampleOps 0 exampleOpts 0 none (by decide) [1, 2, 3, 5] 5 (by decide)⟩

/-- The example tree is the result of inserting 1, 2, 3 and 5 into the example root. -/
theorem exampleTree_built :
    addAll exampleOps 5 (NewOctNode 0 exampleOpts 0 none) [1, 2, 3, 5] = Except.ok exampleTree := by
  simp [addAll, AddOctElement_node, exampleOpts, exampleOps, enteredChild, OctNode.isNil,
    NewOctNode, wrapInt64, wrapInt32, wrapUint8, exampleTree]

/-- Witness of C2: after the four insertions 1, 2, 3, 5 with capacity three the count of the
root is 4. -/
theorem global_count_consistency_witness :
    (1 : Int) ≤ exampleOpts.MaxNumPointsPerNode ∧
    [1, 2, 3, 5].length < 9223372036854775808 ∧ [1, 2, 3, 5].length < 5 ∧
    ∃ t, addAll exampleOps 5 (NewOctNode 0 exampleOpts 0 none) [1, 2, 3, 5] = Except.ok t ∧
      t.GlobalChildrenCount = 4 := by
  refine ⟨by decide, by decide, by decide, ?_⟩
  obtain ⟨t, ht, hg, -⟩ :=
    global_count_consistency exampleOps 0 exampleOpts 0 none (by decide) [1, 2, 3, 5]
      (by decide) 5 (by decide)
  exact ⟨t, ht, by simpa using hg⟩

/-- Witness of C3: after the four insertions 1, 2, 3, 5 with capacity three the child in
slot 5 holds at most three elements. -/
theorem serialized_capacity_bound_witness :
    (1 : Int) ≤ exampleOpts.MaxNumPointsPerNode ∧ [1, 2, 3, 5].length < 5 ∧
    addAll exampleOps 5 (NewOctNode 0 exampleOpts 0 none) [1, 2, 3, 5] = Except.ok exampleTree ∧
    ((exampleTree.nodeAt [5]).Items.length : Int) ≤ exampleOpts.MaxNumPointsPerNode := by
  refine ⟨by decide, by decide, exampleTree_built, ?_⟩
  obtain ⟨t, ht, hall⟩ :=
    serialized_capacity_bound exampleOps 0 exampleOpts 0 none (by decide) [1, 2, 3, 5] 5
      (by decide)
  rw [exampleTree_built] at ht
  cases ht
  exact (hall [5] rfl).2

/-- Witness of C4: the child in slot 5 of the tree built from 1, 2, 3, 5. -/
theorem local_count_invariant_witness :
    addAll exampleOps 5 (NewOctNode 0 exampleOpts 0 none) [1, 2, 3, 5] = Except.ok exampleTree ∧
    (exampleTree.nodeAt [5]).isNil = false ∧
    (exampleTree.nodeAt [5]).LocalChildrenCount =
      ((exampleTree.nodeAt [5]).Items.length : Int) :=
  ⟨exampleTree_built, rfl,
    local_count_invariant exampleOps 0 exampleOpts 0 none [1, 2, 3, 5] 5 exampleTree
      exampleTree_built [5] rfl⟩

end claims

/-! ## The claims on one call -/

section onecall

variable (G : BoundingBoxOps B E)

theorem everyNode_of_all {P : OctNode B E → Bool} {t : OctNode B E} (h : t.all P = true) :
    EveryNode (fun m => P m = true) t := by
  induction t with
  | nil => exact everyNode_nil _
  | node p b c i d g l o f ih =>
    simp only [OctNode.all, Bool.and_eq_true, List.all_eq_true] at h
    rw [everyNode_node]
    exact ⟨h.1, fun k => ih k (h.2 k (List.mem_finRange k))⟩

/-- With a positive capacity at every node, a call on a node returns, with any fuel above the
length of the storing path read off the tree. -/
theorem AddOctElement_returns (t : OctNode B E) (self : NodeRef) (e : E)
    (hn : t.isNil = false) (hcap : EveryNode (fun m => 1 ≤ m.MaxNumPointsPerNode) t) :
    ∃ t1, Inserts G e self t (storingPath G t e) t1 ∧
      ∀ fuel, (storingPath G t e).length < fuel →
        AddOctElement G fuel self t e = Except.ok t1 := by
  obtain ⟨sp, t1, h⟩ := inserts_exists G e t self hn hcap
  have hsp := Inserts.path_eq G h
  subst hsp
  exact ⟨t1, h, fun fuel hf => AddOctElement_of_inserts G h hf⟩

/-- C5 (storing node). For a node `t` all of whose nodes have a capacity of at least one, the
call `AddOctElement(e)` returns, and with `sp` the storing path read off `t`: `e` is appended
to the end of `Items` of the node at `sp` and `Items` of every other node is unchanged; every
step of `sp` enters the slot of the octant of `e` in the box of the node it leaves; every
node strictly before the end of `sp` was present and at capacity; the node at `sp` was
present with `LocalChildrenCount` strictly below `MaxNumPointsPerNode`, or was absent and is
a child created by the call, which now holds exactly `e` and has a positive capacity; and if
`t` itself is below capacity then `sp` is empty, the slots of `t` are unchanged and one
call (fuel 1, no nested call) suffices. -/
theorem storing_node (t : OctNode B E) (self : NodeRef) (e : E)
    (hn : t.isNil = false) (hcap : EveryNode (fun m => 1 ≤ m.MaxNumPointsPerNode) t) :
    ∃ t1, (∀ fuel, (storingPath G t e).length < fuel →
        AddOctElement G fuel self t e = Except.ok t1) ∧
      (t1.nodeAt (storingPath G t e)).Items = (t.nodeAt (storingPath G t e)).Items ++ [e] ∧
      (∀ q : NodeRef, q ≠ storingPath G t e → (t1.nodeAt q).Items = (t.nodeAt q).Items) ∧
      (∀ (q : NodeRef) (k : Fin 8), q ++ [k] <+: storingPath G t e →
        ∃ b, (t.nodeAt q).BoundingBox = some b ∧ k = G.getOctantFromElement b e) ∧
      (∀ q : NodeRef, q <+: storingPath G t e → q ≠ storingPath G t e →
        (t.nodeAt q).isNil = false ∧
        ¬ (t.nodeAt q).LocalChildrenCount < (t.nodeAt q).MaxNumPointsPerNode) ∧
      (((t.nodeAt (storingPath G t e)).isNil = false ∧
          (t.nodeAt (storingPath G t e)).LocalChildrenCount <
            (t.nodeAt (storingPath G t e)).MaxNumPointsPerNode) ∨
        ((t.nodeAt (storingPath G t e)).isNil = true ∧
          (t1.nodeAt (storingPath G t e)).isNil = false ∧
          (t1.nodeAt (storingPath G t e)).Items = [e] ∧
          0 < (t1.nodeAt (storingPath G t e)).MaxNumPointsPerNode)) ∧
      (t.LocalChildrenCount < t.MaxNumPointsPerNode →
        storingPath G t e = [] ∧ (∀ k, t1.Children k = t.Children k) ∧
        AddOctElement G 1 self t e = Except.ok t1) := by
  obtain ⟨t1, h, hrun⟩ := AddOctElement_returns G t self e hn hcap
  have hitems := Inserts.items G h
  have hnil1 : (t1.nodeAt (storingPath G t e)).isNil = false := by
    rw [Inserts.isNil G h]; simp
  refine ⟨t1, hrun, ?_, ?_, Inserts.octant G h, Inserts.prefix_full G h, ?_, ?_⟩
  · rw [hitems]; simp
  · intro q hq
    rw [hitems]; simp [hq]
  · cases hc : (t.nodeAt (storingPath G t e)).isNil with
    | false =>
      left
      rcases Inserts.storing_below G h with h1 | h1
      · rw [hc] at h1; cases h1
      · exact ⟨rfl, h1⟩
    | true =>
      right
      refine ⟨rfl, hnil1, ?_, ?_⟩
      · rw [hitems, (isNil_eq_true_iff _).1 hc]; simp [OctNode.Items]
      · have := Inserts.capacity_pos G h hcap _ hnil1
        simp only at this
        omega
  · intro hlt
    cases t with
    | nil => simp [OctNode.isNil] at hn
    | node p b c i d g l o f =>
      simp only [OctNode.LocalChildrenCount, OctNode.MaxNumPointsPerNode] at hlt
      have hsp : storingPath G (OctNode.node p b c i d g l o f) e = [] := by
        simp [storingPath, hlt]
      refine ⟨hsp, ?_, hrun 1 (by rw [hsp]; simp)⟩
      have hone := hrun 1 (by rw [hsp]; simp)
      rw [AddOctElement_node, if_pos hlt] at hone
      cases hone
      intro k
      rfl

/-- C6 (path increment). For a node `t` all of whose nodes have a capacity of at least one
and an `int64` count below the maximum, the call `AddOctElement(e)` returns, every node on
the storing path (the receiver and the storing node included) is present afterwards with
`GlobalChildrenCount` increased by exactly one (from 0 for a node created by the call),
`GlobalChildrenCount` is unchanged everywhere else, and it decreases nowhere. -/
theorem path_increment (t : OctNode B E) (self : NodeRef) (e : E)
    (hn : t.isNil = false) (hcap : EveryNode (fun m => 1 ≤ m.MaxNumPointsPerNode) t)
    (hrange : EveryNode (fun m => -9223372036854775808 ≤ m.GlobalChildrenCount ∧
      m.GlobalChildrenCount < 9223372036854775807) t) :
    ∃ t1, (∀ fuel, (storingPath G t e).length < fuel →
        AddOctElement G fuel self t e = Except.ok t1) ∧
      (∀ q : NodeRef, q <+: storingPath G t e →
        (t1.nodeAt q).isNil = false ∧
        (t1.nodeAt q).GlobalChildrenCount = (t.nodeAt q).GlobalChildrenCount + 1) ∧
      (∀ q : NodeRef, ¬ q <+: storingPath G t e →
        (t1.nodeAt q).GlobalChildrenCount = (t.nodeAt q).GlobalChildrenCount) ∧
      (∀ q : NodeRef, (t.nodeAt q).GlobalChildrenCount ≤ (t1.nodeAt q).GlobalChildrenCount) := by
  obtain ⟨t1, h, hrun⟩ := AddOctElement_returns G t self e hn hcap
  have hglobal := Inserts.globalCount G h
  have hwrap : ∀ q : NodeRef,
      wrapInt64 ((t.nodeAt q).GlobalChildrenCount + 1) = (t.nodeAt q).GlobalChildrenCount + 1 := by
    intro q
    cases hc : (t.nodeAt q).isNil with
    | true =>
      rw [(isNil_eq_true_iff _).1 hc]
      simp [OctNode.GlobalChildrenCount, wrapInt64]
    | false =>
      have := hrange q hc
      simp only at this
      exact wrapInt64_succ (by omega) (by omega)
  have hon : ∀ q : NodeRef, q <+: storingPath G t e →
      (t1.nodeAt q).isNil = false ∧
      (t1.nodeAt q).GlobalChildrenCount = (t.nodeAt q).GlobalChildrenCount + 1 := by
    intro q hq
    constructor
    · rw [Inserts.isNil G h]
      by_cases hqs : q = storingPath G t e
      · simp [hqs]
      · simp only [hqs, if_false]
        exact (Inserts.prefix_full G h q hq hqs).1
    · rw [hglobal, if_pos hq, hwrap]
  have hoff : ∀ q : NodeRef, ¬ q <+: storingPath G t e →
      (t1.nodeAt q).GlobalChildrenCount = (t.nodeAt q).GlobalChildrenCount := by
    intro q hq
    rw [hglobal, if_neg hq]
  refine ⟨t1, hrun, hon, hoff, ?_⟩
  intro q
  by_cases hq : q <+: storingPath G t e
  · rw [(hon q hq).2]; omega
  · rw [hoff q hq]

/-- C7 (no retroactive redistribution). After a call `AddOctElement(e)` that returns, every
node present before the call is still present, and its `Items` before the call is a prefix
of its `Items` after the call, which is the old list or the old list extended by `e`. -/
theorem no_retroactive_redistribution (fuel : Nat) (self : NodeRef) (t t1 : OctNode B E) (e : E)
    (h : AddOctElement G fuel self t e = Except.ok t1) :
    ∀ q : NodeRef, (t.nodeAt q).isNil = false →
      (t1.nodeAt q).isNil = false ∧
      (t.nodeAt q).Items <+: (t1.nodeAt q).Items ∧
      ((t1.nodeAt q).Items = (t.nodeAt q).Items ∨
        (t1.nodeAt q).Items = (t.nodeAt q).Items ++ [e]) := by
  obtain ⟨sp, hins, -⟩ := AddOctElement_inserts G h
  intro q hq
  have hitems := Inserts.items G hins q
  refine ⟨?_, ?_, ?_⟩
  · rw [Inserts.isNil G hins]
    by_cases hqs : q = sp
    · simp [hqs]
    · simpa [hqs] using hq
  · rw [hitems]
    exact List.prefix_append _ _
  · by_cases hqs : q = sp
    · right; rw [hitems]; simp [hqs]
    · left; rw [hitems]; simp [hqs]

/-- C8 (immutable fields and frame). After a call `AddOctElement(e)` that returns, every node
present before the call is still present with the same `BoundingBox`, `Parent`, `Depth` and
`Opts`; every slot of `Children` that held a child still holds one; and every node that is
not on the storing path is unchanged together with its subtree. -/
theorem immutable_fields_and_frame (fuel : Nat) (self : NodeRef) (t t1 : OctNode B E) (e : E)
    (h : AddOctElement G fuel self t e = Except.ok t1) :
    (∀ q : NodeRef, (t.nodeAt q).isNil = false →
      (t1.nodeAt q).isNil = false ∧
      (t1.nodeAt q).BoundingBox = (t.nodeAt q).BoundingBox ∧
      (t1.nodeAt q).Parent = (t.nodeAt q).Parent ∧
      (t1.nodeAt q).Depth = (t.nodeAt q).Depth ∧
      (t1.nodeAt q).Opts = (t.nodeAt q).Opts) ∧
    (∀ (q : NodeRef) (k : Fin 8), ((t.nodeAt q).Children k).isNil = false →
      ((t1.nodeAt q).Children k).isNil = false) ∧
    (∀ q : NodeRef, ¬ q <+: storingPath G t e → t1.nodeAt q = t.nodeAt q) := by
  obtain ⟨sp, hins, -⟩ := AddOctElement_inserts G h
  have hpresent : ∀ q : NodeRef, (t.nodeAt q).isNil = false → (t1.nodeAt q).isNil = false := by
    intro q hq
    rw [Inserts.isNil G hins]
    by_cases hqs : q = sp
    · simp [hqs]
    · simpa [hqs] using hq
  refine ⟨fun q hq => ⟨hpresent q hq, Inserts.immutable G hins q hq⟩, ?_, ?_⟩
  · intro q k hk
    have h1 : (t.nodeAt (q ++ [k])).isNil = false := by
      rw [nodeAt_append]; exact hk
    have h2 := hpresent _ h1
    rw [nodeAt_append] at h2
    exact h2
  · intro q hq
    rw [← Inserts.path_eq G hins] at hq
    exact Inserts.frame G hins q hq

/-- The leaf flag agrees with the slots at every node, through one call. -/
theorem Inserts.leaf_ok {e : E} {self sp : NodeRef} {t t1 : OctNode B E}
    (h : Inserts G e self t sp t1)
    (ht : EveryNode (fun m => m.IsLeaf = true ↔ ∀ k, (m.Children k).isNil = true) t) :
    EveryNode (fun m => m.IsLeaf = true ↔ ∀ k, (m.Children k).isNil = true) t1 := by
  refine Inserts.everyNode G (fun _ hm => hm) ?_ ?_ ?_ h ht
  · intro self p b c i d g l o f _ _
    simp [NewOctNode, OctNode.IsLeaf, OctNode.Children, OctNode.isNil]
  · intro p b c i d g l o f hP _
    simpa [OctNode.IsLeaf, OctNode.Children] using hP
  · intro self p b c i d g l o f sp child hP _ hrec
    have hchild := (Inserts.not_nil G hrec).2
    simp only [OctNode.IsLeaf, OctNode.Children] at hP ⊢
    constructor
    · intro hl
      simp only [Bool.and_eq_true, Bool.not_eq_true', ] at hl
      have := hP.1 hl.1 (G.getOctantFromElement b e)
      rw [hl.2] at this
      cases this
    · intro hr
      have := hr (G.getOctantFromElement b e)
      rw [Function.update_same, hchild] at this
      cases this

/-- C9 (leaf flag). After `NewOctNode` (the empty sequence) and after every serial
`AddOctElement` call on the tree grown from it, every node of the tree has `IsLeaf` true
exactly when its eight `Children` slots are nil; and a node whose `IsLeaf` is false is still
present with `IsLeaf` false after any further serial calls. -/
theorem leaf_flag (b : B) (o : TilerOptions) (d : Nat) (p : Option NodeRef)
    (es : List E) (fuel : Nat) (t : OctNode B E)
    (h : addAll G fuel (NewOctNode b o d p) es = Except.ok t) :
    (∀ q : NodeRef, (t.nodeAt q).isNil = false →
      ((t.nodeAt q).IsLeaf = true ↔ ∀ k, ((t.nodeAt q).Children k).isNil = true)) ∧
    (∀ (es2 : List E) (fuel2 : Nat) (t2 : OctNode B E),
      addAll G fuel2 t es2 = Except.ok t2 →
      ∀ q : NodeRef, (t.nodeAt q).isNil = false → (t.nodeAt q).IsLeaf = false →
        (t2.nodeAt q).isNil = false ∧ (t2.nodeAt q).IsLeaf = false) := by
  constructor
  · refine addAll_induct G
      (I := fun _ m => EveryNode (fun m => m.IsLeaf = true ↔ ∀ k, (m.Children k).isNil = true) m)
      (fun _ _ _ _ _ hI hins => Inserts.leaf_ok G hins hI) es [] (NewOctNode b o d p) t
      ((everyNode_new _ b o d p).2 ?_) h
    simp [NewOctNode, OctNode.IsLeaf, OctNode.Children, OctNode.isNil]
  · intro es2 fuel2 t2 h2 q hq hf
    refine addAll_induct G
      (I := fun _ m => (m.nodeAt q).isNil = false ∧ (m.nodeAt q).IsLeaf = false)
      ?_ es2 [] t t2 ⟨hq, hf⟩ h2
    intro acc m e sp m1 hI hins
    refine ⟨?_, Inserts.isLeaf_false G hins q hI.1 hI.2⟩
    rw [Inserts.isNil G hins]
    by_cases hqs : q = sp
    · simp [hqs]
    · simpa [hqs] using hI.1

/-- C10 (termination). For every capacity of at least one and every sequence of elements,
the serial run on a root made by `NewOctNode` returns a tree, and on every tree so built the
call `AddOctElement(e)` returns for every element `e`: the descent follows the storing path,
whose length is at most the number of insertions plus one, and any fuel above that length
gives the result. -/
theorem termination (b : B) (o : TilerOptions) (d : Nat) (p : Option NodeRef)
    (hcap : 1 ≤ o.MaxNumPointsPerNode) (es : List E) (e : E) :
    (∃ t, addAll G (es.length + 1) (NewOctNode b o d p) es = Except.ok t) ∧
    ∀ (fuel0 : Nat) (t : OctNode B E),
      addAll G fuel0 (NewOctNode b o d p) es = Except.ok t →
      (storingPath G t e).length ≤ es.length + 1 ∧
      ∃ t1, ∀ fuel, (storingPath G t e).length < fuel →
        AddOctElement G fuel [] t e = Except.ok t1 := by
  refine ⟨addAll_new_exists G b o d p hcap es _ (by omega), ?_⟩
  intro fuel0 t ht
  have hinv := addAll_induct G
    (I := fun acc m => m.isNil = false ∧ EveryNode (fun m => 1 ≤ m.MaxNumPointsPerNode) m ∧
      DepthBelow (acc.length + 1) m)
    (by
      intro acc m e1 sp m1 hI hins
      refine ⟨(Inserts.not_nil G hins).2, Inserts.capacity_pos G hins hI.2.1, ?_⟩
      simpa using Inserts.depthBelow G hins hI.2.2)
    es [] (NewOctNode b o d p) t
    ⟨rfl, (everyNode_new _ b o d p).2 hcap, by simpa using depthBelow_new b o d p⟩ ht
  simp only [List.nil_append] at hinv
  obtain ⟨t1, hins, hrun⟩ := AddOctElement_returns G t [] e hinv.1 hinv.2.1
  exact ⟨Inserts.path_length_le G hins hinv.2.2, t1, hrun⟩

/-- The example trees have a positive capacity at every node. -/
theorem exampleFull_capacity :
    EveryNode (fun m => 1 ≤ m.MaxNumPointsPerNode) exampleFull :=
  everyNode_mono (fun _ hm => of_decide_eq_true hm)
    (everyNode_of_all (P := fun m => decide (1 ≤ m.MaxNumPointsPerNode)) (by decide))

theorem exampleTree_capacity :
    EveryNode (fun m => 1 ≤ m.MaxNumPointsPerNode) exampleTree :=
  everyNode_mono (fun _ hm => of_decide_eq_true hm)
    (everyNode_of_all (P := fun m => decide (1 ≤ m.MaxNumPointsPerNode)) (by decide))

theorem exampleTree_range :
    EveryNode (fun m => -9223372036854775808 ≤ m.GlobalChildrenCount ∧
      m.GlobalChildrenCount < 9223372036854775807) exampleTree :=
  everyNode_mono (fun _ hm => of_decide_eq_true hm)
    (everyNode_of_all (P := fun m => decide (-9223372036854775808 ≤ m.GlobalChildrenCount ∧
      m.GlobalChildrenCount < 9223372036854775807)) (by decide))

/-- Inserting 5 into the full example root gives the example tree. -/
theorem exampleFull_add :
    AddOctElement exampleOps 2 [] exampleFull 5 = Except.ok exampleTree := by
  simp [AddOctElement_node, exampleOpts, exampleOps, enteredChild, OctNode.isNil,
    NewOctNode, wrapInt64, wrapInt32, wrapUint8, exampleTree, exampleFull]

/-- Witness of C5: inserting 5 into the full example root stores it in a new child in
slot 5 and leaves the root's items alone. -/
theorem storing_node_witness :
    exampleFull.isNil = false ∧
    EveryNode (fun m => 1 ≤ m.MaxNumPointsPerNode) exampleFull ∧
    ∃ t1, AddOctElement exampleOps 2 [] exampleFull 5 = Except.ok t1 ∧
      (t1.nodeAt [5]).Items = [5] ∧ t1.Items = [1, 2, 3] := by
  refine ⟨rfl, exampleFull_capacity, ?_⟩
  obtain ⟨t1, hrun, hat, hother, -⟩ :=
    storing_node exampleOps exampleFull [] 5 rfl exampleFull_capacity
  have hsp : storingPath exampleOps exampleFull 5 = [5] := by decide
  rw [hsp] at hrun hat hother
  exact ⟨t1, hrun 2 (by decide), by simpa using hat, hother [] (by decide)⟩

/-- Witness of C6: inserting 13 into the example tree increments the counts of the root and
of the child in slot 5, and not the count of the absent node in slot 3. -/
theorem path_increment_witness :
    exampleTree.isNil = false ∧
    EveryNode (fun m => 1 ≤ m.MaxNumPointsPerNode) exampleTree ∧
    EveryNode (fun m => -9223372036854775808 ≤ m.GlobalChildrenCount ∧
      m.GlobalChildrenCount < 9223372036854775807) exampleTree ∧
    ∃ t1, AddOctElement exampleOps 2 [] exampleTree 13 = Except.ok t1 ∧
      t1.GlobalChildrenCount = 5 ∧ (t1.nodeAt [5]).GlobalChildrenCount = 2 ∧
      (t1.nodeAt [3]).GlobalChildrenCount = 0 := by
  refine ⟨rfl, exampleTree_capacity, exampleTree_range, ?_⟩
  obtain ⟨t1, hrun, hon, hoff, -⟩ :=
    path_increment exampleOps exampleTree [] 13 rfl exampleTree_capacity exampleTree_range
  have hsp : storingPath exampleOps exampleTree 13 = [5] := by decide
  rw [hsp] at hrun hon hoff
  refine ⟨t1, hrun 2 (by decide), ?_, ?_, ?_⟩
  · exact (hon [] (by decide)).2
  · exact (hon [5] (by decide)).2
  · exact hoff [3] (by decide)

/-- Witness of C7: inserting 5 into the full example root leaves the root's items alone. -/
theorem no_retroactive_redistribution_witness :
    AddOctElement exampleOps 2 [] exampleFull 5 = Except.ok exampleTree ∧
    (exampleFull.nodeAt []).isNil = false ∧
    (exampleTree.nodeAt []).isNil = false ∧
    (exampleFull.nodeAt []).Items <+: (exampleTree.nodeAt []).Items ∧
    ((exampleTree.nodeAt []).Items = (exampleFull.nodeAt []).Items ∨
      (exampleTree.nodeAt []).Items = (exampleFull.nodeAt []).Items ++ [5]) :=
  ⟨exampleFull_add, rfl,
    no_retroactive_redistribution exampleOps 2 [] exampleFull exampleTree 5 exampleFull_add []
      rfl⟩

/-- Witness of C8: inserting 5 into the full example root keeps the root's depth and leaves
the absent slot 3 alone. -/
theorem immutable_fields_and_frame_witness :
    AddOctElement exampleOps 2 [] exampleFull 5 = Except.ok exampleTree ∧
    exampleTree.Depth = exampleFull.Depth ∧
    exampleTree.nodeAt [3] = exampleFull.nodeAt [3] := by
  obtain ⟨h1, -, h3⟩ :=
    immutable_fields_and_frame exampleOps 2 [] exampleFull exampleTree 5 exampleFull_add
  exact ⟨exampleFull_add, (h1 [] rfl).2.2.2.1, h3 [3] (by decide)⟩

/-- Witness of C9: in the tree built from 1, 2, 3, 5 the child in slot 5, which has no
children, is a leaf. -/
theorem leaf_flag_witness :
    addAll exampleOps 5 (NewOctNode 0 exampleOpts 0 none) [1, 2, 3, 5] = Except.ok exampleTree ∧
    (exampleTree.nodeAt [5]).isNil = false ∧
    (exampleTree.nodeAt [5]).IsLeaf = true :=
  ⟨exampleTree_built, rfl,
    ((leaf_flag exampleOps 0 exampleOpts 0 none [1, 2, 3, 5] 5 exampleTree
      exampleTree_built).1 [5] rfl).2 (fun _ => rfl)⟩

/-- Witness of C10: after the insertions 1, 2, 3, 5 with capacity three, inserting 13
returns. -/
theorem termination_witness :
    (1 : Int) ≤ exampleOpts.MaxNumPointsPerNode ∧
    ∃ t1, AddOctElement exampleOps 2 [] exampleTree 13 = Except.ok t1 := by
  refine ⟨by decide, ?_⟩
  obtain ⟨-, t1, h1⟩ :=
    (termination exampleOps 0 exampleOpts 0 none (by decide) [1, 2, 3, 5] 13).2 5 exampleTree
      exampleTree_built
  have hsp : storingPath exampleOps exampleTree 13 = [5] := by decide
  exact ⟨t1, h1 2 (by rw [hsp]; decide)⟩

end onecall

/-! ## Construction and child acquisition -/

section construction

variable (G : BoundingBoxOps B E)

/-- C11 (construction). For every bounding box, options, depth and parent, `NewOctNode`
returns a node (not nil) with the given `BoundingBox`, `Opts`, `Depth` and `Parent`, empty
`Items`, `LocalChildrenCount` 0, `GlobalChildrenCount` 0, `IsLeaf` true and all eight
`Children` slots nil. -/
theorem construction (b : B) (o : TilerOptions) (d : Nat) (p : Option NodeRef) :
    (NewOctNode b o d p : OctNode B E).isNil = false ∧
    (NewOctNode b o d p : OctNode B E).BoundingBox = some b ∧
    (NewOctNode b o d p : OctNode B E).Opts = some o ∧
    (NewOctNode b o d p : OctNode B E).Depth = d ∧
    (NewOctNode b o d p : OctNode B E).Parent = p ∧
    (NewOctNode b o d p : OctNode B E).Items = [] ∧
    (NewOctNode b o d p : OctNode B E).LocalChildrenCount = 0 ∧
    (NewOctNode b o d p : OctNode B E).GlobalChildrenCount = 0 ∧
    (NewOctNode b o d p : OctNode B E).IsLeaf = true ∧
    ∀ k : Fin 8, ((NewOctNode b o d p : OctNode B E).Children k).isNil = true :=
  ⟨rfl, rfl, rfl, rfl, rfl, rfl, rfl, rfl, rfl, fun _ => rfl⟩

/-- What one serial call of `getSubOctNodeContainingElement` does. For a node `n` with
fields `p b c i d g l o f` at address `self` and an element whose octant in the box of `n`
is `k`,
`getSubOctNodeContainingElement` returns the content of slot `k` of the receiver after the
call, where the receiver after the call is: when slot `k` was nil, `n` with slot `k` set to
`NewOctNode(sub-box k, o, d + 1, n)` (the sum taken in `uint8`) and `IsLeaf` set to false,
everything else (`Items`, both counts, the other seven slots) as before; when slot `k` was
occupied, `n` itself, so that the child returned is the one already there.  A second call
returns the same slot and leaves the receiver as the first call left it. -/
theorem child_acquisition (self : NodeRef) (p : Option NodeRef) (b : B)
    (c : Fin 8 → OctNode B E) (i : List E) (d : Nat) (g l : Int) (o : TilerOptions) (f : Bool)
    (e : E) :
    ∃ n1 : OctNode B E,
      getSubOctNodeContainingElement G self (OctNode.node p b c i d g l o f) e =
        Except.ok (n1, G.getOctantFromElement b e) ∧
      n1 = (if (c (G.getOctantFromElement b e)).isNil = true then
          OctNode.node p b
            (Function.update c (G.getOctantFromElement b e)
              (NewOctNode (G.getOctantBoundingBox b (G.getOctantFromElement b e)) o
                (wrapUint8 (d + 1)) (some self)))
            i d g l o false
        else OctNode.node p b c i d g l o f) ∧
      (n1.Children (G.getOctantFromElement b e)).isNil = false ∧
      (∀ j : Fin 8, j ≠ G.getOctantFromElement b e → n1.Children j = c j) ∧
      getSubOctNodeContainingElement G self n1 e =
        Except.ok (n1, G.getOctantFromElement b e) := by
  by_cases hk : (c (G.getOctantFromElement b e)).isNil = true
  · refine ⟨OctNode.node p b
        (Function.update c (G.getOctantFromElement b e)
          (NewOctNode (G.getOctantBoundingBox b (G.getOctantFromElement b e)) o
            (wrapUint8 (d + 1)) (some self)))
        i d g l o false, ?_, (if_pos hk).symm, ?_, ?_, ?_⟩
    · simp [getSubOctNodeContainingElement, hk]
    · simp [OctNode.Children, NewOctNode, OctNode.isNil]
    · intro j hj
      simp [OctNode.Children, Function.update_noteq hj]
    · simp [getSubOctNodeContainingElement, NewOctNode, OctNode.isNil]
  · have hk2 : (c (G.getOctantFromElement b e)).isNil = false := by simpa using hk
    refine ⟨OctNode.node p b c i d g l o f, ?_, (if_neg hk).symm, ?_, ?_, ?_⟩
    · simp [getSubOctNodeContainingElement, hk2]
    · simpa [OctNode.Children] using hk2
    · intro j _
      rfl
    · simp [getSubOctNodeContainingElement, hk2]

/-- Example: the full example root acquires its child for the element 5 in slot 5. -/
theorem child_acquisition_witness :
    ∃ n1 : OctNode Nat Nat,
      getSubOctNodeContainingElement exampleOps [] exampleFull 5 = Except.ok (n1, 5) ∧
      n1.IsLeaf = false ∧ (n1.Children 5).Depth = 1 ∧ (n1.Children 5).Parent = some [] ∧
      getSubOctNodeContainingElement exampleOps [] n1 5 = Except.ok (n1, 5) := by
  obtain ⟨n1, h1, h2, -, -, h5⟩ :=
    child_acquisition exampleOps [] none 0 (fun _ => OctNode.nil) [1, 2, 3] 0 3 3 exampleOpts
      true 5
  refine ⟨n1, h1, ?_, ?_, ?_, h5⟩
  · rw [h2]; rfl
  · rw [h2]; rfl
  · rw [h2]; rfl

end construction

/-! ## Scenarios -/

section scenarios

variable (G : BoundingBoxOps B E)

/-- Elements inserted while the receiver is below capacity are all stored in the receiver. -/
theorem addAll_below_capacity (p : Option NodeRef) (b : B) (c : Fin 8 → OctNode B E) (d : Nat)
    (o : TilerOptions) (f : Bool) (fuel : Nat) (es i : List E)
    (h : ((i.length + es.length : Nat) : Int) ≤ o.MaxNumPointsPerNode) :
    addAll G (fuel + 1) (OctNode.node p b c i d (i.length : Int) (i.length : Int) o f) es =
      Except.ok (OctNode.node p b c (i ++ es) d ((i.length + es.length : Nat) : Int)
        ((i.length + es.length : Nat) : Int) o f) := by
  induction es generalizing i with
  | nil => simp [addAll]
  | cons e es ih =>
    have h32 := o.isInt32.2
    simp only [List.length_cons] at h
    have hl : (i.length : Int) < o.MaxNumPointsPerNode := by omega
    rw [addAll_cons, AddOctElement_node, if_pos hl]
    simp only
    rw [wrapInt64_succ (by omega) (by omega), wrapInt32_succ (by omega) (by omega)]
    have := ih (i ++ [e]) (by simp only [List.length_append, List.length_singleton]; omega)
    simp only [List.length_append, List.length_singleton, Nat.cast_add, Nat.cast_one,
      List.append_assoc, List.singleton_append] at this
    simp only [List.length_cons, Nat.cast_add, Nat.cast_one]
    rw [this]
    congr 2 <;> omega

/-- C13 (scenario A). For every capacity `c` of at least one: inserting `c` elements into a
root made by `NewOctNode` stores them all in the root, in order, which stays a leaf with all
slots nil, whatever their octants; inserting one more element, whose octant is `k`, leaves
the root's `Items` as they are, sets its `IsLeaf` to false and creates in slot `k` a child
whose `Items` is exactly that element, the other seven slots staying nil. -/
theorem scenario_a (b : B) (o : TilerOptions) (d : Nat) (p : Option NodeRef)
    (hcap : 1 ≤ o.MaxNumPointsPerNode) (es : List E)
    (hlen : (es.length : Int) = o.MaxNumPointsPerNode) (e : E) (fuel : Nat) (hfuel : 2 ≤ fuel) :
    ∃ t t1 : OctNode B E,
      addAll G fuel (NewOctNode b o d p) es = Except.ok t ∧
      t.Items = es ∧ t.IsLeaf = true ∧ (∀ k : Fin 8, (t.Children k).isNil = true) ∧
      AddOctElement G fuel [] t e = Except.ok t1 ∧
      t1.Items = es ∧ t1.IsLeaf = false ∧
      (t1.Children (G.getOctantFromElement b e)).isNil = false ∧
      (t1.Children (G.getOctantFromElement b e)).Items = [e] ∧
      (∀ j : Fin 8, j ≠ G.getOctantFromElement b e → (t1.Children j).isNil = true) := by
  obtain ⟨n, rfl⟩ : ∃ n, fuel = n + 2 := ⟨fuel - 2, by omega⟩
  have hbuild := addAll_below_capacity G p b (fun _ => OctNode.nil) d o true (n + 1) es []
    (by simpa using hlen.le)
  simp only [List.length_nil, Nat.cast_zero, List.nil_append, Nat.zero_add] at hbuild
  have hfull : ¬ (es.length : Int) < o.MaxNumPointsPerNode := by omega
  have hadd : AddOctElement G (n + 2) []
      (OctNode.node p b (fun _ => OctNode.nil) es d (es.length : Int) (es.length : Int) o true)
      e =
      Except.ok (OctNode.node p b
        (Function.update (fun _ => OctNode.nil) (G.getOctantFromElement b e)
          (OctNode.node (some [])
            (G.getOctantBoundingBox b (G.getOctantFromElement b e)) (fun _ => OctNode.nil) [e]
            (wrapUint8 (d + 1)) (wrapInt64 (0 + 1)) (wrapInt32 (0 + 1)) o true))
        es d (wrapInt64 ((es.length : Int) + 1)) (es.length : Int) o false) := by
    have hnew : enteredChild G [] b (fun _ => (OctNode.nil : OctNode B E)) d o
        (G.getOctantFromElement b e) =
        NewOctNode (G.getOctantBoundingBox b (G.getOctantFromElement b e)) o
          (wrapUint8 (d + 1)) (some []) := enteredChild_of_nil G rfl
    rw [AddOctElement_node, if_neg hfull, hnew]
    unfold NewOctNode
    rw [AddOctElement_node, if_pos (by omega)]
    simp [OctNode.isNil]
  refine ⟨_, _, hbuild, rfl, rfl, fun _ => rfl, hadd, rfl, rfl, ?_, ?_, ?_⟩
  · simp [OctNode.Children, OctNode.isNil]
  · simp [OctNode.Children, OctNode.Items]
  · intro j hj
    simp [OctNode.Children, Function.update_noteq hj, OctNode.isNil]

/-- Witness of C13: capacity 3, the elements 1, 2, 3 and then 5, whose octant is 5. -/
theorem scenario_a_witness :
    (1 : Int) ≤ exampleOpts.MaxNumPointsPerNode ∧
    (([1, 2, 3] : List Nat).length : Int) = exampleOpts.MaxNumPointsPerNode ∧ 2 ≤ 2 ∧
    ∃ t t1 : OctNode Nat Nat,
      addAll exampleOps 2 (NewOctNode 0 exampleOpts 0 none) [1, 2, 3] = Except.ok t ∧
      t.Items = [1, 2, 3] ∧ t.IsLeaf = true ∧
      AddOctElement exampleOps 2 [] t 5 = Except.ok t1 ∧
      t1.Items = [1, 2, 3] ∧ t1.IsLeaf = false ∧ (t1.Children 5).Items = [5] ∧
      (t1.Children 4).isNil = true := by
  refine ⟨by decide, by decide, by decide, ?_⟩
  obtain ⟨t, t1, h1, h2, h3, -, h5, h6, h7, -, h9, h10⟩ :=
    scenario_a exampleOps 0 exampleOpts 0 none (by decide) [1, 2, 3] (by decide) 5 2 (by decide)
  exact ⟨t, t1, h1, h2, h3, h5, h6, h7, h9, h10 4 (by decide)⟩

end scenarios

/-! ## Full internal nodes and single-element trees -/

section occupancy

variable (G : BoundingBoxOps B E)

/-- If every node below the receiver holds an element and the receiver holds one or is below
capacity, then after one call every node holds an element. -/
theorem Inserts.nonempty {e : E} {self sp : NodeRef} {t t1 : OctNode B E}
    (h : Inserts G e self t sp t1)
    (hbelow : ∀ k, EveryNode (fun m => m.Items ≠ []) (t.Children k))
    (hself : t.Items ≠ [] ∨ t.LocalChildrenCount < t.MaxNumPointsPerNode) :
    EveryNode (fun m => m.Items ≠ []) t1 := by
  induction h with
  | store self p b c i d g l o f hl =>
    rw [everyNode_node]
    exact ⟨by simp [OctNode.Items], hbelow⟩
  | descend self p b c i d g l o f sp child hl hrec ih =>
    rw [everyNode_node]
    constructor
    · rcases hself with h1 | h1
      · exact h1
      · exact absurd h1 hl
    · intro j
      by_cases hj : j = G.getOctantFromElement b e
      · subst hj
        rw [Function.update_same]
        by_cases hk : (c (G.getOctantFromElement b e)).isNil = true
        · have hnew := @enteredChild_of_nil B E G self b c d o (G.getOctantFromElement b e) hk
          rw [hnew] at hrec
          have hpos := Inserts.pos_of_new G hrec _ _ _ _ rfl
          apply ih
          · intro k
            rw [hnew]
            exact everyNode_nil _
          · right
            rw [hnew]
            exact hpos
        · have hk2 : (c (G.getOctantFromElement b e)).isNil = false := by simpa using hk
          have hold := @enteredChild_of_not_nil B E G self b c d o (G.getOctantFromElement b e) hk2
          have hc := hbelow (G.getOctantFromElement b e)
          simp only [OctNode.Children] at hc
          apply ih
          · intro k
            rw [hold]
            exact everyNode_nodeAt hc [k]
          · left
            rw [hold]
            exact hc [] hk2
      · rw [Function.update_noteq hj]
        exact hbelow j

/-- A node that is not a leaf is exactly at capacity, through one call; stated together with
the facts on `LocalChildrenCount` and `Items` on which it depends. -/
theorem Inserts.full_ok {e : E} {self sp : NodeRef} {t t1 : OctNode B E}
    (h : Inserts G e self t sp t1)
    (ht : EveryNode (fun m => m.LocalChildrenCount = (m.Items.length : Int) ∧
      (m.Items.length : Int) ≤ m.MaxNumPointsPerNode ∧
      (m.IsLeaf = false → m.LocalChildrenCount = m.MaxNumPointsPerNode)) t) :
    EveryNode (fun m => m.LocalChildrenCount = (m.Items.length : Int) ∧
      (m.Items.length : Int) ≤ m.MaxNumPointsPerNode ∧
      (m.IsLeaf = false → m.LocalChildrenCount = m.MaxNumPointsPerNode)) t1 := by
  refine Inserts.everyNode G (fun _ hm => hm) ?_ ?_ ?_ h ht
  · intro self p b c i d g l o f hP hl
    simp only [NewOctNode, OctNode.LocalChildrenCount, OctNode.Items,
      OctNode.MaxNumPointsPerNode, OctNode.IsLeaf] at hP ⊢
    refine ⟨by simp, ?_, by simp⟩
    simp only [List.length_nil, Nat.cast_zero]
    omega
  · intro p b c i d g l o f hP hl
    have h32 := o.isInt32.2
    simp only [OctNode.LocalChildrenCount, OctNode.Items, OctNode.MaxNumPointsPerNode,
      OctNode.IsLeaf] at hP ⊢
    rw [wrapInt32_succ (by omega) (by omega)]
    simp only [List.length_append, List.length_singleton, Nat.cast_add, Nat.cast_one]
    refine ⟨by omega, by omega, ?_⟩
    intro hf
    have := hP.2.2 hf
    omega
  · intro self p b c i d g l o f sp child hP hl _
    simp only [OctNode.LocalChildrenCount, OctNode.Items, OctNode.MaxNumPointsPerNode,
      OctNode.IsLeaf] at hP ⊢
    exact ⟨hP.1, hP.2.1, fun _ => by omega⟩

/-- The counts of a tree built by a serial run of fewer than 2^63 insertions. -/
theorem addAll_new_global_ok (b : B) (o : TilerOptions) (d : Nat) (p : Option NodeRef)
    (es : List E) (hrange : es.length < 9223372036854775808) (fuel : Nat) (t : OctNode B E)
    (ht : addAll G fuel (NewOctNode b o d p) es = Except.ok t) :
    t.allItems.length = es.length ∧
      EveryNode (fun m => m.GlobalChildrenCount = (m.allItems.length : Int)) t := by
  have hinv := addAll_induct G
    (I := fun acc m => acc.length < 9223372036854775808 →
      m.allItems.length = acc.length ∧
      EveryNode (fun m => m.GlobalChildrenCount = (m.allItems.length : Int)) m)
    (by
      intro acc m e sp m1 hI hins hlen
      simp only [List.length_append, List.length_singleton] at hlen
      obtain ⟨hl, hall⟩ := hI (by omega)
      have hlen1 := (Inserts.allItems_perm G hins).length_eq
      refine ⟨?_, Inserts.global_ok G hins hall (by omega)⟩
      simp only [List.length_cons] at hlen1
      simp [hlen1, hl])
    es [] (NewOctNode b o d p) t
    (by
      intro _
      refine ⟨by simp, (everyNode_new _ b o d p).2 ?_⟩
      rw [allItems_new]
      simp [NewOctNode, OctNode.GlobalChildrenCount])
    ht (by simpa using hrange)
  simpa using hinv

/-- The items of a tree built by a serial run: every node has the options of the root, its
`LocalChildrenCount` is the length of its `Items`, which is at most the capacity, a node
that is not a leaf is at capacity, and every node below the root holds an element, as
does the root once an element has been inserted. -/
theorem addAll_new_occupancy (b : B) (o : TilerOptions) (d : Nat) (p : Option NodeRef)
    (hcap : 1 ≤ o.MaxNumPointsPerNode) (es : List E) (fuel : Nat) (t : OctNode B E)
    (ht : addAll G fuel (NewOctNode b o d p) es = Except.ok t) :
    EveryNode (fun m => m.Opts = some o) t ∧
    EveryNode (fun m => m.LocalChildrenCount = (m.Items.length : Int) ∧
      (m.Items.length : Int) ≤ m.MaxNumPointsPerNode ∧
      (m.IsLeaf = false → m.LocalChildrenCount = m.MaxNumPointsPerNode)) t ∧
    (∀ k, EveryNode (fun m => m.Items ≠ []) (t.Children k)) ∧
    (es ≠ [] → EveryNode (fun m => m.Items ≠ []) t) := by
  have hinv := addAll_induct G
    (I := fun acc m => EveryNode (fun m => m.Opts = some o) m ∧
      EveryNode (fun m => m.LocalChildrenCount = (m.Items.length : Int) ∧
        (m.Items.length : Int) ≤ m.MaxNumPointsPerNode ∧
        (m.IsLeaf = false → m.LocalChildrenCount = m.MaxNumPointsPerNode)) m ∧
      (∀ k, EveryNode (fun m => m.Items ≠ []) (m.Children k)) ∧
      (m.Items ≠ [] ∨ m.LocalChildrenCount < m.MaxNumPointsPerNode) ∧
      (acc ≠ [] → EveryNode (fun m => m.Items ≠ []) m))
    (by
      intro acc m e sp m1 hI hins
      obtain ⟨h1, h2, h3, h4, -⟩ := hI
      have hne := Inserts.nonempty G hins h3 h4
      have hnil := (Inserts.not_nil G hins).2
      refine ⟨Inserts.opts_ok G o hins h1, Inserts.full_ok G hins h2, ?_, ?_, fun _ => hne⟩
      · intro k
        have := everyNode_nodeAt hne [k]
        simpa using this
      · left
        exact hne [] hnil)
    es [] (NewOctNode b o d p) t
    (by
      refine ⟨(everyNode_new _ b o d p).2 rfl, (everyNode_new _ b o d p).2 ?_, ?_, ?_, ?_⟩
      · simp only [NewOctNode, OctNode.LocalChildrenCount, OctNode.Items,
          OctNode.MaxNumPointsPerNode, OctNode.IsLeaf]
        refine ⟨by simp, ?_, by simp⟩
        simp only [List.length_nil, Nat.cast_zero]
        omega
      · intro k
        exact everyNode_nil _
      · right
        simp only [NewOctNode, OctNode.LocalChildrenCount, OctNode.MaxNumPointsPerNode]
        omega
      · intro hc
        exact absurd rfl hc)
    ht
  simp only [List.nil_append] at hinv
  exact ⟨hinv.1, hinv.2.1, hinv.2.2.1, hinv.2.2.2.2⟩

theorem items_length_le_allItems (m : OctNode B E) : m.Items.length ≤ m.allItems.length := by
  cases m with
  | nil => simp [OctNode.Items]
  | node p b c i d g l o f =>
    simp only [OctNode.Items, OctNode.allItems, List.length_append]
    omega

/-- C19 (internal nodes are full, children are never empty). For every capacity of at least
one and every sequence of fewer than 2^63 elements inserted one at a time into a root made by
`NewOctNode`, the run returns, and in the resulting tree every node whose `IsLeaf` is false
has `LocalChildrenCount` equal to `MaxNumPointsPerNode`, and every node other than the root
has at least one element in `Items` and a `GlobalChildrenCount` of at least one. -/
theorem internal_full_children_nonempty (b : B) (o : TilerOptions) (d : Nat)
    (p : Option NodeRef) (hcap : 1 ≤ o.MaxNumPointsPerNode) (es : List E)
    (hrange : es.length < 9223372036854775808) (fuel : Nat) (hfuel : es.length < fuel) :
    ∃ t, addAll G fuel (NewOctNode b o d p) es = Except.ok t ∧
      ∀ q : NodeRef, (t.nodeAt q).isNil = false →
        ((t.nodeAt q).IsLeaf = false →
          (t.nodeAt q).LocalChildrenCount = (t.nodeAt q).MaxNumPointsPerNode) ∧
        (q ≠ [] → (t.nodeAt q).Items ≠ [] ∧ 1 ≤ (t.nodeAt q).GlobalChildrenCount) := by
  obtain ⟨t, ht⟩ := addAll_new_exists G b o d p hcap es fuel hfuel
  obtain ⟨-, hfull, hbelow, -⟩ := addAll_new_occupancy G b o d p hcap es fuel t ht
  obtain ⟨-, hglobal⟩ := addAll_new_global_ok G b o d p es hrange fuel t ht
  refine ⟨t, ht, fun q hq => ⟨(hfull q hq).2.2, ?_⟩⟩
  intro hne
  cases q with
  | nil => exact absurd rfl hne
  | cons k q =>
    have hitems : (t.nodeAt (k :: q)).Items ≠ [] := hbelow k q hq
    refine ⟨hitems, ?_⟩
    rw [hglobal (k :: q) hq]
    have h1 := items_length_le_allItems (t.nodeAt (k :: q))
    have h2 : 0 < (t.nodeAt (k :: q)).Items.length := List.length_pos.2 hitems
    omega

/-- Witness of C19: after the insertions 1, 2, 3, 5 with capacity three the root, which is
not a leaf, is at capacity, and the child in slot 5 holds an element. -/
theorem internal_full_children_nonempty_witness :
    (1 : Int) ≤ exampleOpts.MaxNumPointsPerNode ∧
    [1, 2, 3, 5].length < 9223372036854775808 ∧ [1, 2, 3, 5].length < 5 ∧
    addAll exampleOps 5 (NewOctNode 0 exampleOpts 0 none) [1, 2, 3, 5] = Except.ok exampleTree ∧
    exampleTree.LocalChildrenCount = exampleTree.MaxNumPointsPerNode ∧
    (exampleTree.nodeAt [5]).Items ≠ [] ∧ 1 ≤ (exampleTree.nodeAt [5]).GlobalChildrenCount := by
  refine ⟨by decide, by decide, by decide, exampleTree_built, ?_⟩
  obtain ⟨t, ht, hall⟩ :=
    internal_full_children_nonempty exampleOps 0 exampleOpts 0 none (by decide) [1, 2, 3, 5]
      (by decide) 5 (by decide)
  rw [exampleTree_built] at ht
  cases ht
  exact ⟨(hall [] rfl).1 rfl, (hall [5] rfl).2 (by decide)⟩

end occupancy

section singletons

variable (G : BoundingBoxOps B E)

/-- In a tree whose nodes hold one element each there are as many nodes as elements. -/
theorem allItems_length_eq_nodeCount (t : OctNode B E)
    (h : EveryNode (fun m => m.Items.length = 1) t) : t.allItems.length = t.nodeCount := by
  induction t with
  | nil => simp [OctNode.allItems, OctNode.nodeCount]
  | node p b c i d g l o f ih =>
    rw [everyNode_node] at h
    have hi : i.length = 1 := h.1
    have hmap : (List.finRange 8).map (fun k => (c k).allItems.length) =
        (List.finRange 8).map (fun k => (c k).nodeCount) :=
      List.map_congr_left (fun k _ => ih k (h.2 k))
    simp only [OctNode.allItems, OctNode.nodeCount, List.length_append, List.length_flatMap,
      hi]
    rw [← hmap]
    rfl

/-- C14 (scenario B). For capacity one and every sequence of at least one and fewer than
2^63 elements inserted one at a time into a root made by `NewOctNode`, the run returns, the
root's `GlobalChildrenCount` is the number of insertions, every node of the resulting tree
holds exactly one element and has `LocalChildrenCount` one, every leaf in particular, and
the tree has as many nodes as elements were inserted. -/
theorem scenario_b (b : B) (o : TilerOptions) (d : Nat) (p : Option NodeRef)
    (hone : o.MaxNumPointsPerNode = 1) (es : List E) (hne : es ≠ [])
    (hrange : es.length < 9223372036854775808) (fuel : Nat) (hfuel : es.length < fuel) :
    ∃ t, addAll G fuel (NewOctNode b o d p) es = Except.ok t ∧
      t.GlobalChildrenCount = (es.length : Int) ∧
      (∀ q : NodeRef, (t.nodeAt q).isNil = false →
        (t.nodeAt q).Items.length = 1 ∧ (t.nodeAt q).LocalChildrenCount = 1) ∧
      (∀ q : NodeRef, (t.nodeAt q).isNil = false → (t.nodeAt q).IsLeaf = true →
        (t.nodeAt q).LocalChildrenCount = 1) ∧
      t.nodeCount = es.length := by
  have hcap : 1 ≤ o.MaxNumPointsPerNode := by omega
  obtain ⟨t, ht⟩ := addAll_new_exists G b o d p hcap es fuel hfuel
  obtain ⟨hopts, hfull, -, hnonempty⟩ := addAll_new_occupancy G b o d p hcap es fuel t ht
  obtain ⟨hlen, hglobal⟩ := addAll_new_global_ok G b o d p es hrange fuel t ht
  have hnil : t.isNil = false := by
    cases es with
    | nil => exact absurd rfl hne
    | cons e es =>
      rw [addAll_cons] at ht
      cases hr : AddOctElement G fuel [] (NewOctNode b o d p) e with
      | error x => rw [hr] at ht; cases ht
      | ok t2 =>
        rw [hr] at ht
        have h2 := (Inserts.not_nil G (AddOctElement_inserts G hr).choose_spec.1).2
        exact addAll_induct G (I := fun _ m => m.isNil = false)
          (fun _ _ _ _ _ _ hins => (Inserts.not_nil G hins).2) es [] t2 t h2 ht
  have hsingle : ∀ q : NodeRef, (t.nodeAt q).isNil = false →
      (t.nodeAt q).Items.length = 1 ∧ (t.nodeAt q).LocalChildrenCount = 1 := by
    intro q hq
    have h1 := hfull q hq
    have h2 : 0 < (t.nodeAt q).Items.length := List.length_pos.2 (hnonempty hne q hq)
    have h3 := maxNumPointsPerNode_of_opts (hopts q hq)
    simp only at h1
    constructor
    · omega
    · omega
  refine ⟨t, ht, ?_, hsingle, fun q hq _ => (hsingle q hq).2, ?_⟩
  · have := hglobal [] hnil
    simp only [nodeAt_empty] at this
    rw [this, hlen]
  · rw [← allItems_length_eq_nodeCount t (fun q hq => (hsingle q hq).1), hlen]

/-- Witness of C14: capacity one and the five elements 0, 1, 2, 3, 4, the last four in
distinct octants of the root. -/
theorem scenario_b_witness :
    exampleOpts1.MaxNumPointsPerNode = 1 ∧ ([0, 1, 2, 3, 4] : List Nat) ≠ [] ∧
    [0, 1, 2, 3, 4].length < 9223372036854775808 ∧ [0, 1, 2, 3, 4].length < 6 ∧
    ∃ t, addAll exampleOps 6 (NewOctNode 0 exampleOpts1 0 none) [0, 1, 2, 3, 4] = Except.ok t ∧
      t.GlobalChildrenCount = 5 ∧ t.nodeCount = 5 := by
  refine ⟨by decide, by decide, by decide, by decide, ?_⟩
  obtain ⟨t, ht, hg, -, -, hn⟩ :=
    scenario_b exampleOps 0 exampleOpts1 0 none (by decide) [0, 1, 2, 3, 4] (by decide)
      (by decide) 6 (by decide)
  exact ⟨t, ht, by simpa using hg, by simpa using hn⟩

end singletons

/-! ## Non-positive capacity -/

section nonpositive

variable (G : BoundingBoxOps B E)

theorem enteredChild_not_nil (self : NodeRef) (b : B) (c : Fin 8 → OctNode B E) (d : Nat)
    (o : TilerOptions) (k : Fin 8) : (enteredChild G self b c d o k).isNil = false := by
  by_cases hk : (c k).isNil = true
  · rw [enteredChild_of_nil G hk]; rfl
  · have hk2 : (c k).isNil = false := by simpa using hk
    rw [enteredChild_of_not_nil G hk2]; exact hk2

/-- C20 (non-positive capacity never stores). On a node all of whose nodes have a capacity
of zero or less (and a `LocalChildrenCount` that is not negative, as every count written by
the code is), the test of `AddOctElement` fails at every node met: whatever the fuel, the
call does not return a tree but exhausts the fuel in nested calls, so for every bound it
makes more descents than the bound, it stores the element nowhere and increments no
`GlobalChildrenCount`. -/
theorem nonpositive_capacity_never_stores (t : OctNode B E) (self : NodeRef) (e : E)
    (hn : t.isNil = false)
    (hcap : EveryNode (fun m => m.MaxNumPointsPerNode ≤ 0 ∧ 0 ≤ m.LocalChildrenCount) t) :
    (∀ fuel : Nat, AddOctElement G fuel self t e = Except.error Fault.outOfFuel) ∧
    ¬ ∃ (sp : NodeRef) (t1 : OctNode B E), Inserts G e self t sp t1 := by
  have hall : ∀ fuel : Nat, AddOctElement G fuel self t e = Except.error Fault.outOfFuel := by
    intro fuel
    induction fuel generalizing self t with
    | zero => cases t <;> rfl
    | succ n ih =>
      cases t with
      | nil => simp [OctNode.isNil] at hn
      | node p b c i d g l o f =>
        rw [everyNode_node] at hcap
        have h0 := hcap.1
        simp only [OctNode.MaxNumPointsPerNode, OctNode.LocalChildrenCount] at h0
        have hl : ¬ l < o.MaxNumPointsPerNode := by omega
        rw [AddOctElement_node, if_neg hl, ih _ _ (enteredChild_not_nil G _ _ _ _ _ _)]
        by_cases hk : (c (G.getOctantFromElement b e)).isNil = true
        · rw [enteredChild_of_nil G hk, everyNode_new]
          simp only [NewOctNode, OctNode.MaxNumPointsPerNode, OctNode.LocalChildrenCount]
          omega
        · rw [enteredChild_of_not_nil G (by simpa using hk)]
          exact hcap.2 _
  refine ⟨hall, ?_⟩
  rintro ⟨sp, t1, h⟩
  have := AddOctElement_of_inserts G h (Nat.lt_succ_self sp.length)
  rw [hall] at this
  cases this

/-- Witness of C20: a new root with capacity zero, with fuel for seven nested calls. -/
theorem nonpositive_capacity_never_stores_witness :
    (NewOctNode 0 exampleOpts0 0 none : OctNode Nat Nat).isNil = false ∧
    AddOctElement exampleOps 7 [] (NewOctNode 0 exampleOpts0 0 none) 5 =
      Except.error Fault.outOfFuel :=
  ⟨rfl,
    (nonpositive_capacity_never_stores exampleOps (NewOctNode 0 exampleOpts0 0 none) [] 5 rfl
      ((everyNode_new _ 0 exampleOpts0 0 none).2 (by decide))).1 7⟩

end nonpositive

/-! ## The depth counter -/

section depth

variable (G : BoundingBoxOps B E)

theorem depthFrom_nil (d : Nat) : DepthFrom d (OctNode.nil : OctNode B E) := by
  intro q hq
  simp [OctNode.isNil] at hq

theorem depthFrom_node (n : Nat) (p : Option NodeRef) (b : B)
    (c : Fin 8 → OctNode B E) (i : List E) (d : Nat) (g l : Int) (o : TilerOptions) (f : Bool) :
    DepthFrom n (OctNode.node p b c i d g l o f) ↔
      d = n % 256 ∧ ∀ k, DepthFrom (n + 1) (c k) := by
  constructor
  · intro h
    refine ⟨by simpa [OctNode.Depth] using h [] rfl, fun k q hq => ?_⟩
    have := h (k :: q) hq
    simp only [nodeAt_cons, OctNode.Children, List.length_cons] at this
    rw [this]
    congr 1
    omega
  · rintro ⟨h0, hk⟩ q hq
    cases q with
    | nil => simpa [OctNode.Depth] using h0
    | cons j q =>
      have := hk j q hq
      simp only [nodeAt_cons, OctNode.Children, List.length_cons]
      rw [this]
      congr 1
      omega

/-- The depth counters stay the distances modulo 256 through one call. -/
theorem Inserts.depth_ok {e : E} {self sp : NodeRef} {t t1 : OctNode B E} {n : Nat}
    (h : Inserts G e self t sp t1) (ht : DepthFrom n t) : DepthFrom n t1 := by
  induction h generalizing n with
  | store self p b c i d g l o f hl =>
    rw [depthFrom_node] at ht ⊢
    exact ht
  | descend self p b c i d g l o f sp child hl hrec ih =>
    rw [depthFrom_node] at ht ⊢
    refine ⟨ht.1, fun j => ?_⟩
    by_cases hj : j = G.getOctantFromElement b e
    · subst hj
      rw [Function.update_same]
      apply ih
      by_cases hk : (c (G.getOctantFromElement b e)).isNil = true
      · rw [enteredChild_of_nil G hk]
        unfold NewOctNode
        rw [depthFrom_node]
        refine ⟨?_, fun _ => depthFrom_nil _⟩
        rw [ht.1]
        unfold wrapUint8
        omega
      · rw [enteredChild_of_not_nil G (by simpa using hk)]
        exact ht.2 _
    · rw [Function.update_noteq hj]
      exact ht.2 j

/-- In a tree built by a serial run from a root of depth 0, the `Depth` of every node is its
distance from the root modulo 256. -/
theorem addAll_new_depth (b : B) (o : TilerOptions) (p : Option NodeRef) (es : List E)
    (fuel : Nat) (t : OctNode B E) (ht : addAll G fuel (NewOctNode b o 0 p) es = Except.ok t) :
    DepthFrom 0 t := by
  refine addAll_induct G (I := fun _ m => DepthFrom 0 m)
    (fun _ _ _ _ _ hI hins => Inserts.depth_ok G hins hI) es [] (NewOctNode b o 0 p) t ?_ ht
  show DepthFrom 0 (NewOctNode b o 0 p)
  unfold NewOctNode
  rw [depthFrom_node]
  exact ⟨rfl, fun _ => depthFrom_nil _⟩

/-- When the octant of the element is the same in every box, a chain of full nodes in that
slot is the storing path down to its first absent or below-capacity node. -/
theorem storingPath_chain (e : E) (k : Fin 8) (hoct : ∀ b, G.getOctantFromElement b e = k)
    (n : Nat) (t : OctNode B E)
    (hfull : ∀ j, j < n → (t.nodeAt (List.replicate j k)).isNil = false ∧
      ¬ (t.nodeAt (List.replicate j k)).LocalChildrenCount <
        (t.nodeAt (List.replicate j k)).MaxNumPointsPerNode)
    (hend : (t.nodeAt (List.replicate n k)).isNil = true ∨
      (t.nodeAt (List.replicate n k)).LocalChildrenCount <
        (t.nodeAt (List.replicate n k)).MaxNumPointsPerNode) :
    storingPath G t e = List.replicate n k := by
  induction n generalizing t with
  | zero =>
    cases t with
    | nil => rfl
    | node p b c i d g l o f =>
      rcases hend with h | h
      · simp [OctNode.isNil] at h
      · simp only [List.replicate_zero, nodeAt_empty, OctNode.LocalChildrenCount,
          OctNode.MaxNumPointsPerNode] at h
        simp [storingPath, h]
  | succ n ih =>
    cases t with
    | nil =>
      have := (hfull 0 (by omega)).1
      simp [OctNode.isNil] at this
    | node p b c i d g l o f =>
      have h0 := (hfull 0 (by omega)).2
      simp only [List.replicate_zero, nodeAt_empty, OctNode.LocalChildrenCount,
        OctNode.MaxNumPointsPerNode] at h0
      simp only [storingPath, if_neg h0, hoct, List.replicate_succ]
      congr 1
      apply ih
      · intro j hj
        have := hfull (j + 1) (by omega)
        simpa [List.replicate_succ, OctNode.Children] using this
      · simpa [List.replicate_succ, OctNode.Children] using hend

/-- With capacity one, inserting the same element `n` times, when its octant is the same in
every box, builds a chain: the nodes at distances `0` to `n - 1` along that slot are present
and hold one element each. -/
theorem addAll_new_chain (e : E) (k : Fin 8) (hoct : ∀ b, G.getOctantFromElement b e = k)
    (b : B) (o : TilerOptions) (d : Nat) (p : Option NodeRef)
    (hone : o.MaxNumPointsPerNode = 1) (n fuel : Nat) (t : OctNode B E)
    (ht : addAll G fuel (NewOctNode b o d p) (List.replicate n e) = Except.ok t) :
    ∀ j, j < n → (t.nodeAt (List.replicate j k)).isNil = false ∧
      (t.nodeAt (List.replicate j k)).LocalChildrenCount = 1 := by
  have hinv := addAll_induct G
    (I := fun acc m => (∀ x ∈ acc, x = e) →
      EveryNode (fun m => m.Opts = some o) m ∧
      (∀ j, j < acc.length → (m.nodeAt (List.replicate j k)).isNil = false ∧
        (m.nodeAt (List.replicate j k)).LocalChildrenCount = 1) ∧
      (m.nodeAt (List.replicate acc.length k)).LocalChildrenCount = 0 ∧
      (m.nodeAt (List.replicate (acc.length + 1) k)).isNil = true)
    (by
      intro acc m x sp m1 hI hins hall
      have hx : x = e := hall x (by simp)
      subst hx
      obtain ⟨hopts, hfull, hzero, hnil⟩ := hI (fun y hy => hall y (by simp [hy]))
      have hmax : ∀ q : NodeRef, (m.nodeAt q).isNil = false →
          (m.nodeAt q).MaxNumPointsPerNode = 1 := fun q hq =>
        (maxNumPointsPerNode_of_opts (hopts q hq)).trans hone
      have hsp : sp = List.replicate acc.length k := by
        rw [Inserts.path_eq G hins]
        apply storingPath_chain G x k hoct
        · intro j hj
          refine ⟨(hfull j hj).1, ?_⟩
          rw [(hfull j hj).2, hmax _ (hfull j hj).1]
          omega
        · cases hc : (m.nodeAt (List.replicate acc.length k)).isNil with
          | true => exact Or.inl rfl
          | false =>
            right
            rw [hzero, hmax _ hc]
            omega
      subst hsp
      have hlen : ∀ j, j ≠ acc.length → List.replicate j k ≠ List.replicate acc.length k := by
        intro j hj hc
        exact hj (by simpa using congrArg List.length hc)
      refine ⟨Inserts.opts_ok G o hins hopts, ?_, ?_, ?_⟩
      · intro j hj
        simp only [List.length_append, List.length_singleton] at hj
        rw [Inserts.isNil G hins, Inserts.localCount G hins]
        by_cases hja : j = acc.length
        · subst hja
          simp only [if_true, true_and]
          rw [hzero]
          decide
        · simp only [hlen j hja, if_false]
          exact hfull j (by omega)
      · simp only [List.length_append, List.length_singleton]
        rw [Inserts.localCount G hins, if_neg (hlen _ (by omega))]
        rw [(isNil_eq_true_iff _).1 hnil]
        rfl
      · simp only [List.length_append, List.length_singleton]
        rw [Inserts.isNil G hins, if_neg (hlen _ (by omega))]
        rw [List.replicate_succ', nodeAt_append, (isNil_eq_true_iff _).1 hnil]
        simp [OctNode.isNil])
    (List.replicate n e) [] (NewOctNode b o d p) t
    (by
      intro _
      refine ⟨(everyNode_new _ b o d p).2 rfl, ?_, rfl, ?_⟩
      · intro j hj
        simp at hj
      · simp [NewOctNode, OctNode.Children, OctNode.isNil])
    ht (by simp)
  intro j hj
  exact hinv.2.1 j (by simpa using hj)

/-- The chain built with capacity one by 257 insertions of the element 0, which falls into
octant 0 of every box: the run returns, the nodes at distances 0 to 256 along slot 0 are
present, and every `Depth` is the distance from the root modulo 256. -/
theorem exampleChain_built :
    ∃ t, addAll exampleOps 258 (NewOctNode 0 exampleOpts1 0 none) (List.replicate 257 0) =
        Except.ok t ∧
      (∀ j, j < 257 → (t.nodeAt (List.replicate j 0)).isNil = false) ∧ DepthFrom 0 t := by
  obtain ⟨t, ht⟩ := addAll_new_exists exampleOps 0 exampleOpts1 0 none (by decide)
    (List.replicate 257 0) 258 (by rw [List.length_replicate]; decide)
  exact ⟨t, ht,
    fun j hj => (addAll_new_chain exampleOps 0 0 (fun _ => rfl) 0 exampleOpts1 0 none rfl 257
      258 t ht j hj).1,
    addAll_new_depth exampleOps 0 exampleOpts1 none _ 258 t ht⟩

/-- C12, the code at a failing input. With capacity one, 257 insertions of an element that
falls into octant 0 of every box into a root of depth 0 return a tree in which the node 256
slots below the root is present and has `Depth` 0, not 256. -/
theorem depth_wraps_at_256 :
    ∃ t, addAll exampleOps 258 (NewOctNode 0 exampleOpts1 0 none) (List.replicate 257 0) =
        Except.ok t ∧
      (t.nodeAt (List.replicate 256 0)).isNil = false ∧
      (List.replicate 256 (0 : Fin 8)).length = 256 ∧
      (t.nodeAt (List.replicate 256 0)).Depth = 0 := by
  obtain ⟨t, ht, hchain, hdepth⟩ := exampleChain_built
  have hnil := hchain 256 (by decide)
  refine ⟨t, ht, hnil, List.length_replicate _ _, ?_⟩
  have := hdepth _ hnil
  rw [List.length_replicate] at this
  exact this

end depth

/-! ## The diagnostic dump -/

section dump

theorem printLoop_nil (visit : Fin 8 → List String × Option Fault) (present : Fin 8 → Bool)
    (acc : List String × Option Fault) : printLoop visit present [] acc = acc := rfl

theorem printLoop_cons (visit : Fin 8 → List String × Option Fault) (present : Fin 8 → Bool)
    (k : Fin 8) (ks : List (Fin 8)) (acc : List String × Option Fault) :
    printLoop visit present (k :: ks) acc =
      printLoop visit present ks
        (match acc.2 with
        | some _ => acc
        | none => if present k = true then (acc.1 ++ (visit k).1, (visit k).2) else acc) := rfl

/-- After a panic the loop prints nothing more. -/
theorem printLoop_stopped (visit : Fin 8 → List String × Option Fault) (present : Fin 8 → Bool)
    (ks : List (Fin 8)) (ls : List String) (x : Fault) :
    printLoop visit present ks (ls, some x) = (ls, some x) := by
  induction ks with
  | nil => rfl
  | cons k ks ih => rw [printLoop_cons]; exact ih

/-- When no visited child panics, the loop prints the lines of the present children in the
order of the slots. -/
theorem printLoop_ok (visit : Fin 8 → List String × Option Fault) (present : Fin 8 → Bool)
    (ks : List (Fin 8)) (ls : List String)
    (h : ∀ k ∈ ks, present k = true → (visit k).2 = none) :
    printLoop visit present ks (ls, none) =
      (ls ++ ks.flatMap (fun k => if present k = true then (visit k).1 else []), none) := by
  induction ks generalizing ls with
  | nil => simp [printLoop_nil]
  | cons k ks ih =>
    rw [printLoop_cons]
    have hks : ∀ j ∈ ks, present j = true → (visit j).2 = none :=
      fun j hj => h j (List.mem_cons_of_mem _ hj)
    by_cases hp : present k = true
    · have hk := h k (List.mem_cons_self _ _) hp
      simp only
      rw [if_pos hp, hk, ih _ hks]
      simp [hp]
    · simp only
      rw [if_neg hp, ih _ hks]
      simp [hp]

/-- When a present child panics, so does the loop. -/
theorem printLoop_panics (visit : Fin 8 → List String × Option Fault) (present : Fin 8 → Bool)
    (ks : List (Fin 8)) (acc : List String × Option Fault) (k : Fin 8) (hk : k ∈ ks)
    (hp : present k = true) (hv : (visit k).2 ≠ none) :
    (printLoop visit present ks acc).2 ≠ none := by
  induction ks generalizing acc with
  | nil => simp at hk
  | cons a ks ih =>
    rw [printLoop_cons]
    obtain ⟨ls, fl⟩ := acc
    cases fl with
    | some x =>
      simp only
      rw [printLoop_stopped]
      simp
    | none =>
      simp only
      rcases List.mem_cons.1 hk with rfl | hmem
      · simp only [hp, if_true]
        cases hx : (visit k).2 with
        | none => exact absurd hx hv
        | some x =>
          rw [printLoop_stopped]
          simp
      · exact ih _ hmem

/-- The loop ends without a panic or with a panic of one of the visited children. -/
theorem printLoop_fault_kind (visit : Fin 8 → List String × Option Fault)
    (present : Fin 8 → Bool) (F : Fault) (ks : List (Fin 8)) (acc : List String × Option Fault)
    (h : ∀ k ∈ ks, present k = true → (visit k).2 = none ∨ (visit k).2 = some F)
    (hacc : acc.2 = none ∨ acc.2 = some F) :
    (printLoop visit present ks acc).2 = none ∨ (printLoop visit present ks acc).2 = some F := by
  induction ks generalizing acc with
  | nil => exact hacc
  | cons a ks ih =>
    rw [printLoop_cons]
    apply ih _ (fun j hj => h j (List.mem_cons_of_mem _ hj))
    obtain ⟨ls, fl⟩ := acc
    cases fl with
    | some x => exact hacc
    | none =>
      simp only
      by_cases hp : present a = true
      · simp only [hp, if_true]
        exact h a (List.mem_cons_self _ _) hp
      · simp only [hp, if_false]
        exact hacc

theorem PrintStructure_node (p : Option NodeRef) (b : B) (c : Fin 8 → OctNode B E)
    (i : List E) (d : Nat) (g l : Int) (o : TilerOptions) (f : Bool) :
    PrintStructure (OctNode.node p b c i d g l o f) =
      if (d : Int) - 1 < 0 then ([], some Fault.negativeRepeatCount)
      else
        printLoop (fun k => PrintStructure (c k)) (fun k => !(c k).isNil) (List.finRange 8)
          ([structureLine d l f], none) := by
  rw [PrintStructure]

/-- On a node of depth 0 the call panics before it prints anything. -/
theorem PrintStructure_depth_zero (p : Option NodeRef) (b : B) (c : Fin 8 → OctNode B E)
    (i : List E) (g l : Int) (o : TilerOptions) (f : Bool) :
    PrintStructure (OctNode.node p b c i 0 g l o f) = ([], some Fault.negativeRepeatCount) := by
  rw [PrintStructure_node]
  simp

/-- The only panic of a call on a node is the one of `strings.Repeat`. -/
theorem PrintStructure_fault_kind (t : OctNode B E) (hn : t.isNil = false) :
    (PrintStructure t).2 = none ∨ (PrintStructure t).2 = some Fault.negativeRepeatCount := by
  induction t with
  | nil => simp [OctNode.isNil] at hn
  | node p b c i d g l o f ih =>
    rw [PrintStructure_node]
    by_cases hd : (d : Int) - 1 < 0
    · rw [if_pos hd]; exact Or.inr rfl
    · rw [if_neg hd]
      apply printLoop_fault_kind
      · intro k _ hp
        exact ih k (by simpa using hp)
      · exact Or.inl rfl

/-- A call on a tree with a node of depth 0 panics. -/
theorem PrintStructure_panics (q : NodeRef) (t : OctNode B E)
    (hq : (t.nodeAt q).isNil = false) (hd : (t.nodeAt q).Depth = 0) :
    (PrintStructure t).2 = some Fault.negativeRepeatCount := by
  have hne : (PrintStructure t).2 ≠ none := by
    induction q generalizing t with
    | nil =>
      cases t with
      | nil => simp [OctNode.isNil] at hq
      | node p b c i d g l o f =>
        simp only [nodeAt_empty, OctNode.Depth] at hd
        subst hd
        rw [PrintStructure_depth_zero]
        simp
    | cons k q ih =>
      cases t with
      | nil => simp [OctNode.isNil] at hq
      | node p b c i d g l o f =>
        simp only [nodeAt_cons, OctNode.Children] at hq hd
        rw [PrintStructure_node]
        by_cases hz : (d : Int) - 1 < 0
        · rw [if_pos hz]; simp
        · rw [if_neg hz]
          refine printLoop_panics _ _ _ _ k (List.mem_finRange k) ?_ (ih (c k) hq hd)
          simp [isNil_of_nodeAt hq]
  rcases PrintStructure_fault_kind t (isNil_of_nodeAt hq) with h | h
  · exact absurd h hne
  · exact h

/-- On a tree without a node of depth 0 the call does not panic and prints one line per
node, in depth-first pre-order with the slots in ascending order: `Depth - 1` spaces, the
marker, `LocalChildrenCount` and `IsLeaf`. -/
theorem PrintStructure_preorder (t : OctNode B E) (hn : t.isNil = false)
    (hd : EveryNode (fun m => 1 ≤ m.Depth) t) :
    PrintStructure t =
      (t.preorder.map (fun m => structureLine m.Depth m.LocalChildrenCount m.IsLeaf), none) := by
  induction t with
  | nil => simp [OctNode.isNil] at hn
  | node p b c i d g l o f ih =>
    rw [everyNode_node] at hd
    have hd1 : 1 ≤ d := hd.1
    have hz : ¬ (d : Int) - 1 < 0 := by omega
    rw [PrintStructure_node, if_neg hz, printLoop_ok, OctNode.preorder, List.map_cons,
      List.map_flatMap]
    · refine Prod.ext ?_ rfl
      show structureLine d l f :: _ = structureLine d l f :: _
      congr 1
      apply List.flatMap_congr
      intro k _
      cases hk : (c k).isNil with
      | true =>
        rw [(isNil_eq_true_iff _).1 hk]
        simp [OctNode.preorder, OctNode.isNil]
      | false =>
        simp only [Bool.not_false, if_true]
        rw [ih k hk (hd.2 k)]
    · intro k _ hp
      rw [ih k (by simpa using hp) (hd.2 k)]

/-- C15, the code at the failing input. The tree of scenario A (capacity 3, the insertions
1, 2, 3, 5, one child in slot 5) has a root of depth 0, and `PrintStructure` on it panics in
`strings.Repeat` without printing a line. -/
theorem printStructure_scenario_a_panics :
    addAll exampleOps 5 (NewOctNode 0 exampleOpts 0 none) [1, 2, 3, 5] = Except.ok exampleTree ∧
    exampleTree.Depth = 0 ∧
    PrintStructure exampleTree = ([], some Fault.negativeRepeatCount) :=
  ⟨exampleTree_built, rfl, PrintStructure_depth_zero _ _ _ _ _ _ _ _⟩

/-- C16, the code at a failing input. With capacity one, 257 insertions of an element that
falls into octant 0 of every box build a chain; the child of the root has `Depth` 1, and
`PrintStructure` on it panics in `strings.Repeat`, at the node of the chain whose depth
counter has wrapped to 0, instead of printing a line for every node of the subtree. -/
theorem printStructure_panics_below_depth_one :
    ∃ t, addAll exampleOps 258 (NewOctNode 0 exampleOpts1 0 none) (List.replicate 257 0) =
        Except.ok t ∧
      (t.nodeAt [0]).isNil = false ∧ (t.nodeAt [0]).Depth = 1 ∧
      (PrintStructure (t.nodeAt [0])).2 = some Fault.negativeRepeatCount := by
  obtain ⟨t, ht, hchain, hdepthFrom⟩ := exampleChain_built
  have hchild : (t.nodeAt [0]).isNil = false := hchain 1 (by decide)
  have hone : (t.nodeAt [0]).Depth = 1 := hdepthFrom [0] hchild
  have hnil := hchain 256 (by decide)
  have hdepth := hdepthFrom _ hnil
  rw [List.length_replicate] at hdepth
  have hsplit : (List.replicate 256 (0 : Fin 8)) = [0] ++ List.replicate 255 0 := rfl
  rw [hsplit, nodeAt_append] at hnil hdepth
  exact ⟨t, ht, hchild, hone, PrintStructure_panics _ _ hnil hdepth⟩

end dump

section dumpExamples

/-- The tree of scenario A grown from a root of depth 1. -/
theorem exampleTree1_built :
    addAll exampleOps 5 (NewOctNode 0 exampleOpts 1 none) [1, 2, 3, 5] =
      Except.ok exampleTree1 := by
  simp [addAll, AddOctElement_node, exampleOpts, exampleOps, enteredChild, OctNode.isNil,
    NewOctNode, wrapInt64, wrapInt32, wrapUint8, exampleTree1]

/-- On the tree of scenario A grown from a root of depth 1 the call prints two lines, the
root's without indentation and the child's with one space. -/
theorem PrintStructure_exampleTree1 :
    PrintStructure exampleTree1 =
      (["- element no: 3 leaf: false", " - element no: 1 leaf: true"], none) := by
  decide

end dumpExamples

/-! ## Child acquisition at the end of the depth range -/

section depthEnd

variable (G : BoundingBoxOps B E)

/-- In a tree built by a serial run, every node is fewer slots away from the root than
elements were inserted (the root itself apart). -/
theorem addAll_new_depthBelow (b : B) (o : TilerOptions) (d : Nat) (p : Option NodeRef)
    (es : List E) (fuel : Nat) (t : OctNode B E)
    (ht : addAll G fuel (NewOctNode b o d p) es = Except.ok t) :
    DepthBelow (max 1 es.length) t := by
  have hinv := addAll_induct G
    (I := fun acc m => (acc = [] → m = NewOctNode b o d p) ∧ DepthBelow (max 1 acc.length) m)
    (by
      intro acc m e sp m1 hI hins
      refine ⟨fun hc => absurd hc (by simp), ?_⟩
      cases acc with
      | nil =>
        have hm := hI.1 rfl
        subst hm
        have hsp := Inserts.path_of_new G hins
        subst hsp
        intro q hq
        rw [Inserts.isNil G hins] at hq
        by_cases hqs : q = []
        · subst hqs; simp
        · rw [if_neg hqs] at hq
          have := depthBelow_new b o d p q hq
          simpa using this
      | cons a acc =>
        intro q hq
        have h2 := Inserts.depthBelow G hins hI.2 q hq
        simp only [List.length_cons, List.length_append, List.length_singleton,
          List.length_nil] at h2 ⊢
        omega)
    es [] (NewOctNode b o d p) t ⟨fun _ => rfl, by simpa using depthBelow_new b o d p⟩ ht
  simpa using hinv.2

/-- On a node of `Depth` 255 whose slot for the element is nil, the call stores a child of
`Depth` 0 in that slot. -/
theorem getSub_at_depth_255 (self : NodeRef) (n : OctNode B E) (e : E) (k : Fin 8)
    (hn : n.isNil = false) (hd : n.Depth = 255)
    (hk : ∀ b, n.BoundingBox = some b → G.getOctantFromElement b e = k)
    (hslot : (n.Children k).isNil = true) :
    ∃ n1 : OctNode B E, getSubOctNodeContainingElement G self n e = Except.ok (n1, k) ∧
      (n1.Children k).isNil = false ∧ (n1.Children k).Depth = 0 := by
  cases n with
  | nil => simp [OctNode.isNil] at hn
  | node p b c i d g l o f =>
    simp only [OctNode.Depth] at hd
    simp only [OctNode.Children] at hslot
    subst hd
    obtain ⟨n1, h1, h2, h3, -, -⟩ := child_acquisition G self p b c i 255 g l o f e
    have hoct := hk b rfl
    rw [hoct] at h1 h2 h3
    rw [if_pos hslot] at h2
    refine ⟨n1, h1, h3, ?_⟩
    rw [h2]
    simp [OctNode.Children, NewOctNode, OctNode.Depth, wrapUint8]

/-- C18, the code at a failing input. With capacity one, 256 insertions of an element that
falls into octant 0 of every box build a chain whose last node, 255 slots below the root,
has `Depth` 255 and an empty slot 0. `getSubOctNodeContainingElement` on that node stores in
slot 0 a child of `Depth` 0, which is not the depth of the node plus one. -/
theorem child_acquisition_depth_wraps :
    ∃ t n1 : OctNode Nat Nat,
      addAll exampleOps 257 (NewOctNode 0 exampleOpts1 0 none) (List.replicate 256 0) =
        Except.ok t ∧
      (t.nodeAt (List.replicate 255 0)).isNil = false ∧
      (t.nodeAt (List.replicate 255 0)).Depth = 255 ∧
      ((t.nodeAt (List.replicate 255 0)).Children 0).isNil = true ∧
      getSubOctNodeContainingElement exampleOps (List.replicate 255 0)
        (t.nodeAt (List.replicate 255 0)) 0 = Except.ok (n1, 0) ∧
      (n1.Children 0).isNil = false ∧
      (n1.Children 0).Depth = 0 ∧
      (n1.Children 0).Depth ≠ (t.nodeAt (List.replicate 255 0)).Depth + 1 := by
  obtain ⟨t, ht⟩ := addAll_new_exists exampleOps 0 exampleOpts1 0 none (by decide)
    (List.replicate 256 0) 257 (by rw [List.length_replicate]; decide)
  have hnil := (addAll_new_chain exampleOps 0 0 (fun _ => rfl) 0 exampleOpts1 0 none rfl 256
    257 t ht 255 (by decide)).1
  have hdepth := addAll_new_depth exampleOps 0 exampleOpts1 none _ 257 t ht _ hnil
  rw [List.length_replicate] at hdepth
  have hbelow := addAll_new_depthBelow exampleOps 0 exampleOpts1 0 none _ 257 t ht
  rw [List.length_replicate] at hbelow
  obtain ⟨q, hq⟩ : ∃ q : NodeRef, q = List.replicate 255 (0 : Fin 8) := ⟨_, rfl⟩
  have hqlen : q.length = 255 := by rw [hq, List.length_replicate]
  rw [← hq] at hnil hdepth ⊢
  have hslot : ((t.nodeAt q).Children 0).isNil = true := by
    cases hc : ((t.nodeAt q).Children 0).isNil with
    | true => rfl
    | false =>
      have h1 : (t.nodeAt (q ++ [0])).isNil = false := by
        rw [nodeAt_append]; exact hc
      have := hbelow _ h1
      rw [List.length_append, hqlen] at this
      simp only [List.length_singleton] at this
      omega
  have hd255 : (t.nodeAt q).Depth = 255 := hdepth
  obtain ⟨n1, h1, h2, h3⟩ :=
    getSub_at_depth_255 exampleOps q (t.nodeAt q) 0 0 hnil hd255 (fun _ _ => rfl) hslot
  refine ⟨t, n1, ht, hnil, hd255, hslot, h1, h2, h3, ?_⟩
  rw [h3, hd255]
  decide

end depthEnd

/-! ## Concurrent child acquisition -/

section concurrent

theorem callerStep_self {s s1 : SlotState} {pc pc1 : CallerPc}
    (h : callerStep s pc = some (s1, pc1)) (hok : CallerOk s pc) : CallerOk s1 pc1 := by
  cases pc <;> simp only [callerStep] at h
  case start =>
    split at h
    · cases h
    · cases h; trivial
  case reading => cases h; exact Or.inr rfl
  case readDone v =>
    cases h
    cases v with
    | none => simp [CallerOk]
    | some x => simpa [CallerOk] using hok
  case waiting =>
    split at h
    · cases h
    · cases h; rfl
  case locked =>
    cases h
    cases hs : s.slot with
    | none => simpa [CallerOk, hs] using hok
    | some x => simpa [CallerOk, hs] using hok
  case creating => cases h; exact ⟨by simp, hok.2⟩
  case stored => cases h; exact hok
  case returning => cases h; exact ⟨hok.1, rfl⟩
  case returned v => cases h

theorem callerStep_other {s s1 : SlotState} {pc pc1 q : CallerPc}
    (h : callerStep s pc = some (s1, pc1)) (hok : CallerOk s pc) (hq : CallerOk s q)
    (hex : pc.inWrite = true → q.inWrite = false) : CallerOk s1 q := by
  cases pc <;> simp only [callerStep] at h
  case start =>
    split at h
    · cases h
    · cases h; cases q <;> exact hq
  case reading => cases h; exact hq
  case readDone v => cases h; cases q <;> exact hq
  case waiting =>
    split at h
    · cases h
    · cases h
      cases q <;> simp only [CallerOk] at hq ⊢ <;>
        first | trivial | exact hq | exact ⟨hq.1, trivial⟩
  case locked => cases h; exact hq
  case creating =>
    cases h
    have hw := hex rfl
    have hnone : s.slot = none := hok.1
    cases q <;> simp_all [CallerOk, CallerPc.inWrite]
  case stored => cases h; cases q <;> exact hq
  case returning =>
    cases h
    have hw := hex rfl
    cases q <;> simp_all [CallerOk, CallerPc.inWrite]
  case returned v => cases h

theorem callerStep_inWrite {s s1 : SlotState} {pc pc1 : CallerPc}
    (h : callerStep s pc = some (s1, pc1)) (hw : pc1.inWrite = true) :
    pc.inWrite = true ∨ s.writer = false := by
  cases pc <;> simp only [callerStep] at h
  case start =>
    split at h
    · cases h
    · cases h; simp [CallerPc.inWrite] at hw
  case reading => cases h; simp [CallerPc.inWrite] at hw
  case readDone v =>
    cases h
    cases v <;> simp [CallerPc.inWrite] at hw
  case waiting =>
    split at h
    · cases h
    · rename_i hc
      right
      cases hwr : s.writer with
      | false => rfl
      | true => exact absurd (Or.inl hwr) hc
  case locked => left; rfl
  case creating => left; rfl
  case stored => left; rfl
  case returning => left; rfl
  case returned v => cases h

theorem callerStep_slot {s s1 : SlotState} {pc pc1 : CallerPc}
    (h : callerStep s pc = some (s1, pc1)) :
    (s1.slot = s.slot ∧ s1.made = s.made) ∨
      (pc = CallerPc.creating ∧ s1.slot = some s.made ∧ s1.made = s.made + 1) := by
  cases pc <;> simp only [callerStep] at h
  case start =>
    split at h
    · cases h
    · cases h; exact Or.inl ⟨rfl, rfl⟩
  case reading => cases h; exact Or.inl ⟨rfl, rfl⟩
  case readDone v => cases h; exact Or.inl ⟨rfl, rfl⟩
  case waiting =>
    split at h
    · cases h
    · cases h; exact Or.inl ⟨rfl, rfl⟩
  case locked => cases h; exact Or.inl ⟨rfl, rfl⟩
  case creating => cases h; exact Or.inr ⟨rfl, rfl, rfl⟩
  case stored => cases h; exact Or.inl ⟨rfl, rfl⟩
  case returning => cases h; exact Or.inl ⟨rfl, rfl⟩
  case returned v => cases h

/-- Every step a caller takes brings it nearer to its return: a call takes at most eight
steps. -/
theorem callerStep_stepsLeft {s s1 : SlotState} {pc pc1 : CallerPc}
    (h : callerStep s pc = some (s1, pc1)) : pc1.stepsLeft < pc.stepsLeft := by
  cases pc <;> simp only [callerStep] at h
  case start =>
    split at h
    · cases h
    · cases h; simp [CallerPc.stepsLeft]
  case reading => cases h; simp [CallerPc.stepsLeft]
  case readDone v => cases h; cases v <;> simp [CallerPc.stepsLeft]
  case waiting =>
    split at h
    · cases h
    · cases h; simp [CallerPc.stepsLeft]
  case locked =>
    cases h
    cases s.slot <;> simp [CallerPc.stepsLeft]
  case creating => cases h; simp [CallerPc.stepsLeft]
  case stored => cases h; simp [CallerPc.stepsLeft]
  case returning => cases h; simp [CallerPc.stepsLeft]
  case returned v => cases h

theorem concInv_initial (slot0 : Option Nat) (leaf0 : Bool) :
    ConcInv slot0 (initialState slot0 leaf0) := by
  refine ⟨?_, fun i => ?_, fun i j hi _ => ?_⟩
  · left
    constructor <;> rfl
  · simp [initialState, CallerOk]
  · simp [initialState, CallerPc.inWrite] at hi

/-- The invariant is kept by every step of every caller. -/
theorem stepAt_inv {slot0 : Option Nat} {i : Nat} {c c1 : Concurrent}
    (hinv : ConcInv slot0 c) (h : stepAt i c = some c1) : ConcInv slot0 c1 := by
  obtain ⟨hslot, hok, hex⟩ := hinv
  unfold stepAt at h
  cases hs : callerStep c.shared (c.pcs i) with
  | none => rw [hs] at h; cases h
  | some r =>
    obtain ⟨s1, pc1⟩ := r
    rw [hs] at h
    cases h
    refine ⟨?_, ?_, ?_⟩
    · rcases callerStep_slot hs with ⟨h1, h2⟩ | ⟨h1, h2, h3⟩
      · simp only [h1, h2]
        exact hslot
      · have hcr := hok i
        rw [h1] at hcr
        have hnone : c.shared.slot = none := hcr.1
        rcases hslot with ⟨ha, hb⟩ | ⟨-, ha, -⟩
        · right
          refine ⟨ha.symm.trans hnone, ?_, ?_⟩
          · show s1.slot = some 0
            rw [h2, hb]
          · show s1.made = 1
            rw [h3, hb]
        · rw [hnone] at ha; cases ha
    · intro j
      by_cases hj : j = i
      · subst hj
        simp only [Function.update_same]
        exact callerStep_self hs (hok j)
      · simp only [Function.update_noteq hj]
        refine callerStep_other hs (hok i) (hok j) ?_
        intro hw
        cases hq : (c.pcs j).inWrite with
        | false => rfl
        | true => exact absurd (hex j i hq hw) hj
    · intro j k hjw hkw
      have hwriter : ∀ m, (c.pcs m).inWrite = true → c.shared.writer = true := by
        intro m hm
        have := hok m
        revert hm this
        cases c.pcs m <;> simp [CallerPc.inWrite, CallerOk]
      have hold : ∀ m, (Function.update c.pcs i pc1 m).inWrite = true → m = i ∨
          (m ≠ i ∧ (c.pcs m).inWrite = true) := by
        intro m hm
        by_cases hmi : m = i
        · exact Or.inl hmi
        · rw [Function.update_noteq hmi] at hm
          exact Or.inr ⟨hmi, hm⟩
      have hnew : pc1.inWrite = true → ∀ m, m ≠ i → (c.pcs m).inWrite = true → False := by
        intro hp m hmi hm
        rcases callerStep_inWrite hs hp with h1 | h1
        · exact hmi (hex m i hm h1)
        · rw [hwriter m hm] at h1; cases h1
      rcases hold j hjw with hj | ⟨hj, hjw2⟩ <;> rcases hold k hkw with hk | ⟨hk, hkw2⟩
      · rw [hj, hk]
      · exfalso
        subst hj
        have hp : pc1.inWrite = true := by simpa using hjw
        exact hnew hp k hk hkw2
      · exfalso
        subst hk
        have hp : pc1.inWrite = true := by simpa using hkw
        exact hnew hp j hj hjw2
      · exact hex j k hjw2 hkw2

theorem runSchedule_inv {slot0 : Option Nat} (schedule : List Nat) {c c1 : Concurrent}
    (hinv : ConcInv slot0 c) (h : runSchedule schedule c = some c1) : ConcInv slot0 c1 := by
  induction schedule generalizing c with
  | nil =>
    simp only [runSchedule, Option.some.injEq] at h
    subst h
    exact hinv
  | cons i rest ih =>
    simp only [runSchedule] at h
    cases hs : stepAt i c with
    | none => rw [hs] at h; cases h
    | some c2 =>
      rw [hs] at h
      exact ih (stepAt_inv hinv hs) h

theorem callerStep_writer {s s1 : SlotState} {pc pc1 : CallerPc}
    (h : callerStep s pc = some (s1, pc1)) (hw : s1.writer = true) :
    pc1.inWrite = true ∨ (pc.inWrite = false ∧ s.writer = true) := by
  cases pc <;> simp only [callerStep] at h
  case start =>
    split at h
    · cases h
    · cases h; exact Or.inr ⟨rfl, hw⟩
  case reading => cases h; exact Or.inr ⟨rfl, hw⟩
  case readDone v => cases h; exact Or.inr ⟨rfl, hw⟩
  case waiting =>
    split at h
    · cases h
    · cases h; exact Or.inl rfl
  case locked =>
    cases h
    left
    cases s.slot <;> rfl
  case creating => cases h; exact Or.inl rfl
  case stored => cases h; exact Or.inl rfl
  case returning => cases h; cases hw
  case returned v => cases h

theorem callerStep_readers {s s1 : SlotState} {pc pc1 : CallerPc}
    (h : callerStep s pc = some (s1, pc1)) :
    (pc1.inRead = pc.inRead ∧ s1.readers = s.readers) ∨
    (pc.inRead = false ∧ pc1.inRead = true ∧ s1.readers = s.readers + 1) ∨
    (pc.inRead = true ∧ pc1.inRead = false ∧ s1.readers = s.readers - 1) := by
  cases pc <;> simp only [callerStep] at h
  case start =>
    split at h
    · cases h
    · cases h; exact Or.inr (Or.inl ⟨rfl, rfl, rfl⟩)
  case reading => cases h; exact Or.inl ⟨rfl, rfl⟩
  case readDone v =>
    cases h
    right; right
    cases v <;> exact ⟨rfl, rfl, rfl⟩
  case waiting =>
    split at h
    · cases h
    · cases h; exact Or.inl ⟨rfl, rfl⟩
  case locked =>
    cases h
    left
    cases s.slot <;> exact ⟨rfl, rfl⟩
  case creating => cases h; exact Or.inl ⟨rfl, rfl⟩
  case stored => cases h; exact Or.inl ⟨rfl, rfl⟩
  case returning => cases h; exact Or.inl ⟨rfl, rfl⟩
  case returned v => cases h

theorem callerStep_of_inWrite (s : SlotState) {pc : CallerPc} (h : pc.inWrite = true) :
    ∃ r, callerStep s pc = some r := by
  cases pc <;> simp [CallerPc.inWrite] at h <;> exact ⟨_, rfl⟩

theorem callerStep_of_inRead (s : SlotState) {pc : CallerPc} (h : pc.inRead = true) :
    ∃ r, callerStep s pc = some r := by
  cases pc <;> simp [CallerPc.inRead] at h <;> exact ⟨_, rfl⟩

theorem stepAt_of_callerStep {i : Nat} {c : Concurrent} {r : SlotState × CallerPc}
    (h : callerStep c.shared (c.pcs i) = some r) : ∃ c1, stepAt i c = some c1 := by
  unfold stepAt
  rw [h]
  exact ⟨_, rfl⟩

theorem lockInv_initial (slot0 : Option Nat) (leaf0 : Bool) :
    LockInv (initialState slot0 leaf0) := by
  refine ⟨fun h => ?_, ∅, fun j => ?_, rfl⟩
  · simp [initialState] at h
  · simp [initialState, CallerPc.inRead]

/-- The agreement of the lock with the callers is kept by every step of every caller. -/
theorem stepAt_lockInv {i : Nat} {c c1 : Concurrent} (hinv : LockInv c)
    (h : stepAt i c = some c1) : LockInv c1 := by
  obtain ⟨hW, S, hS, hcard⟩ := hinv
  unfold stepAt at h
  cases hs : callerStep c.shared (c.pcs i) with
  | none => rw [hs] at h; cases h
  | some r =>
    obtain ⟨s1, pc1⟩ := r
    rw [hs] at h
    cases h
    refine ⟨?_, ?_⟩
    · intro hw
      rcases callerStep_writer hs hw with h1 | ⟨h1, h2⟩
      · exact ⟨i, by simpa using h1⟩
      · obtain ⟨j, hj⟩ := hW h2
        have hji : j ≠ i := by
          intro hc
          rw [hc, h1] at hj
          cases hj
        exact ⟨j, by simpa [Function.update_noteq hji] using hj⟩
    · rcases callerStep_readers hs with ⟨h1, h2⟩ | ⟨h1, h2, h3⟩ | ⟨h1, h2, h3⟩
      · refine ⟨S, fun j => ?_, ?_⟩
        · by_cases hj : j = i
          · subst hj
            simp only [Function.update_same]
            rw [h1]
            exact hS j
          · simp only [Function.update_noteq hj]
            exact hS j
        · show s1.readers = S.card
          rw [h2, hcard]
      · have hi : i ∉ S := by
          intro hc
          rw [← hS i, h1] at hc
          cases hc
        refine ⟨insert i S, fun j => ?_, ?_⟩
        · by_cases hj : j = i
          · subst hj
            simp only [Function.update_same]
            simp [h2]
          · simp only [Function.update_noteq hj]
            rw [hS j]
            simp [hj]
        · show s1.readers = (insert i S).card
          rw [h3, hcard, Finset.card_insert_of_not_mem hi]
      · have hi : i ∈ S := (hS i).1 h1
        refine ⟨S.erase i, fun j => ?_, ?_⟩
        · by_cases hj : j = i
          · subst hj
            simp only [Function.update_same]
            simp [h2]
          · simp only [Function.update_noteq hj]
            rw [hS j]
            simp [hj]
        · show s1.readers = (S.erase i).card
          rw [h3, hcard, Finset.card_erase_of_mem hi]

theorem runSchedule_lockInv (schedule : List Nat) {c c1 : Concurrent}
    (hinv : LockInv c) (h : runSchedule schedule c = some c1) : LockInv c1 := by
  induction schedule generalizing c with
  | nil =>
    simp only [runSchedule, Option.some.injEq] at h
    subst h
    exact hinv
  | cons i rest ih =>
    simp only [runSchedule] at h
    cases hs : stepAt i c with
    | none => rw [hs] at h; cases h
    | some c2 =>
      rw [hs] at h
      exact ih (stepAt_lockInv hinv hs) h

/-- No caller that has started is ever stuck for good: while a caller has started and not
returned, one of the callers that have started can take a step. -/
theorem started_can_step {c : Concurrent} (hlock : LockInv c) (i : Nat) (h1 : c.pcs i ≠ CallerPc.start)
    (h2 : ∀ v, c.pcs i ≠ CallerPc.returned v) :
    ∃ j c1, c.pcs j ≠ CallerPc.start ∧ stepAt j c = some c1 := by
  obtain ⟨hW, S, hS, hcard⟩ := hlock
  have hwrite : ∀ j, (c.pcs j).inWrite = true →
      ∃ j c1, c.pcs j ≠ CallerPc.start ∧ stepAt j c = some c1 := by
    intro j hj
    obtain ⟨r, hr⟩ := callerStep_of_inWrite c.shared hj
    obtain ⟨c1, hc1⟩ := stepAt_of_callerStep hr
    refine ⟨j, c1, ?_, hc1⟩
    intro hc
    rw [hc] at hj
    cases hj
  have hread : ∀ j, (c.pcs j).inRead = true →
      ∃ j c1, c.pcs j ≠ CallerPc.start ∧ stepAt j c = some c1 := by
    intro j hj
    obtain ⟨r, hr⟩ := callerStep_of_inRead c.shared hj
    obtain ⟨c1, hc1⟩ := stepAt_of_callerStep hr
    refine ⟨j, c1, ?_, hc1⟩
    intro hc
    rw [hc] at hj
    cases hj
  cases hw : c.shared.writer with
  | true =>
    obtain ⟨j, hj⟩ := hW hw
    exact hwrite j hj
  | false =>
    cases hpc : c.pcs i with
    | start => exact absurd hpc h1
    | reading => exact hread i (by rw [hpc]; rfl)
    | readDone v => exact hread i (by rw [hpc]; rfl)
    | waiting =>
      by_cases hr : c.shared.readers = 0
      · have hstep : callerStep c.shared (c.pcs i) =
            some (⟨c.shared.slot, c.shared.isLeaf, c.shared.made, c.shared.readers, true⟩,
              CallerPc.locked) := by
          rw [hpc]
          simp [callerStep, hw, hr]
        obtain ⟨c1, hc1⟩ := stepAt_of_callerStep hstep
        exact ⟨i, c1, h1, hc1⟩
      · have hne : S.Nonempty := by
          rw [← Finset.card_pos]
          omega
        obtain ⟨j, hj⟩ := hne
        exact hread j ((hS j).2 hj)
    | locked => exact hwrite i (by rw [hpc]; rfl)
    | creating => exact hwrite i (by rw [hpc]; rfl)
    | stored => exact hwrite i (by rw [hpc]; rfl)
    | returning => exact hwrite i (by rw [hpc]; rfl)
    | returned v => exact absurd hpc (h2 v)

/-- C17 (singleton child creation under concurrency). For a fixed node and octant, any
number of concurrent callers of `getSubOctNodeContainingElement` and any schedule of their
steps: at most one child is ever constructed for the slot; when the slot was nil at the
start, exactly one has been constructed as soon as a caller has returned, and when it was
occupied none is constructed and the slot keeps its child; every caller that has returned
was returned the instance that the slot holds, which is not nil, so that all callers are
returned the same instance; and while a caller has started and not returned, one of the
callers that have started can take a step, each call taking at most eight steps, so that
the calls do return. -/
theorem singleton_child_creation (slot0 : Option Nat) (leaf0 : Bool) (schedule : List Nat)
    (c : Concurrent) (h : runSchedule schedule (initialState slot0 leaf0) = some c) :
    c.shared.made ≤ 1 ∧
    (slot0 = none → (∃ i v, c.pcs i = CallerPc.returned v) → c.shared.made = 1) ∧
    (slot0 ≠ none → c.shared.made = 0 ∧ c.shared.slot = slot0) ∧
    (∀ i v, c.pcs i = CallerPc.returned v → v = c.shared.slot ∧ v ≠ none) ∧
    (∀ i j v w, c.pcs i = CallerPc.returned v → c.pcs j = CallerPc.returned w → v = w) ∧
    (∀ i, c.pcs i ≠ CallerPc.start → (∀ v, c.pcs i ≠ CallerPc.returned v) →
      ∃ j c1, c.pcs j ≠ CallerPc.start ∧ stepAt j c = some c1) ∧
    (∀ j c1, stepAt j c = some c1 →
      (c1.pcs j).stepsLeft < (c.pcs j).stepsLeft ∧ ∀ k, k ≠ j → c1.pcs k = c.pcs k) := by
  have hinv := runSchedule_inv schedule (concInv_initial slot0 leaf0) h
  have hlock := runSchedule_lockInv schedule (lockInv_initial slot0 leaf0) h
  obtain ⟨hslot, hok, -⟩ := hinv
  have hret : ∀ i v, c.pcs i = CallerPc.returned v → v = c.shared.slot ∧ v ≠ none := by
    intro i v hv
    have := hok i
    rw [hv] at this
    exact ⟨this.2, this.1⟩
  refine ⟨?_, ?_, ?_, hret, ?_, started_can_step hlock, ?_⟩
  · rcases hslot with ⟨-, hm⟩ | ⟨-, -, hm⟩ <;> omega
  · rintro h0 ⟨i, v, hv⟩
    obtain ⟨h1, h2⟩ := hret i v hv
    rcases hslot with ⟨hs, -⟩ | ⟨-, -, hm⟩
    · rw [h1, hs] at h2
      exact absurd h0 h2
    · exact hm
  · intro h0
    rcases hslot with ⟨hs, hm⟩ | ⟨hn, -, -⟩
    · exact ⟨hm, hs⟩
    · exact absurd hn h0
  · intro i j v w hv hw
    rw [(hret i v hv).1, (hret j w hw).1]
  · intro j c1 hstep
    unfold stepAt at hstep
    cases hs : callerStep c.shared (c.pcs j) with
    | none => rw [hs] at hstep; cases hstep
    | some r =>
      obtain ⟨s1, pc1⟩ := r
      rw [hs] at hstep
      cases hstep
      refine ⟨?_, fun k hk => ?_⟩
      · simpa using callerStep_stepsLeft hs
      · simp [Function.update_noteq hk]

/-- Witness of C17: three callers that all read the nil slot before any of them takes the
write lock; caller 0 constructs the child, callers 1 and 2 find it at their second test, and
all three are returned the instance 0. -/
theorem singleton_child_creation_witness :
    ∃ c, runSchedule [0, 1, 2, 0, 1, 2, 0, 1, 2, 0, 0, 0, 0, 0, 1, 1, 1, 2, 2, 2]
        (initialState none true) = some c ∧
      c.shared.made = 1 ∧ c.shared.slot = some 0 ∧ c.shared.isLeaf = false ∧
      c.pcs 0 = CallerPc.returned (some 0) ∧ c.pcs 1 = CallerPc.returned (some 0) ∧
      c.pcs 2 = CallerPc.returned (some 0) := by
  have hrun : ∃ c, runSchedule [0, 1, 2, 0, 1, 2, 0, 1, 2, 0, 0, 0, 0, 0, 1, 1, 1, 2, 2, 2]
      (initialState none true) = some c ∧ c.shared.isLeaf = false ∧
      c.pcs 0 = CallerPc.returned (some 0) ∧ c.pcs 1 = CallerPc.returned (some 0) ∧
      c.pcs 2 = CallerPc.returned (some 0) := ⟨_, rfl, rfl, rfl, rfl, rfl⟩
  obtain ⟨c, hc, hleaf, h0, h1, h2⟩ := hrun
  obtain ⟨-, hmade, -, hret, -⟩ := singleton_child_creation none true _ c hc
  exact ⟨c, hc, hmade rfl ⟨0, _, h0⟩, ((hret 0 _ h0).1).symm, hleaf, h0, h1, h2⟩

end concurrent

end octree
